import Mathlib

/-!
Shallow embedding of the PyNite mesh-generation module (`PyNite/Mesh.py`) and
proofs about it.

Embedding conventions, used consistently below:

* Python float arithmetic is idealized as exact rational arithmetic (`ℚ`).
  The constant `math.pi` is embedded as `mpi`, the exact rational value of the
  IEEE-754 double that `math.pi` denotes, so every size/count computation of
  the generators (`int(circumf/mesh_size)`, `b_circ > 3*mesh_size`, ...) is an
  exact rational computation with the very constant the source uses.
* Python `round(x, 10)` is embedded as `round10` (round to the nearest
  multiple of `10⁻¹⁰`, ties to even — Python's documented behaviour), and
  `int(x)` as `pyint` (truncation toward zero).
* Node names `'N' + str(k)` and element names `'Q' + str(k)` are embedded as
  the natural number `k` (the string rendering is injective in `k`, so nothing
  is lost).  Mesh registries (`self.nodes`, `self.elements` — Python dicts)
  are embedded as insertion-ordered association lists with `dictInsert` /
  `dictUpdate` reproducing the overwrite semantics of `dict.update`.
* A revolved node generated as `x = Xo + r*cos(angle), ... z = Zo + r*sin(angle)`
  is stored in polar form `PNode`: its radius `r`, its `turn = angle/2π` (all
  generated angles are exact rational multiples of `2π/c`, so turns are exact
  rationals), the coordinate `off` along the revolution axis, and a `stamp`
  recording which generated sub-mesh created the record (modelling Python
  object identity of `Node3D` records).  The real Cartesian coordinates are
  recovered by `toCart` using `Real.cos`/`Real.sin`; on `radius > 0` and
  `turn ∈ [0,1)` this polar form is a lossless view of the Cartesian one.
-/

namespace PyNiteMesh

/-- Exact rational value of the IEEE-754 double `math.pi` used by the source
(`884279719003555 / 2^48`). -/
def mpi : ℚ := 884279719003555 / 281474976710656

/-- Round to the nearest integer, ties to even: the rounding mode of Python's
built-in `round`. -/
def rhe (q : ℚ) : ℤ :=
  if q - ⌊q⌋ < 1/2 then ⌊q⌋
  else if 1/2 < q - ⌊q⌋ then ⌊q⌋ + 1
  else if ⌊q⌋ % 2 = 0 then ⌊q⌋ else ⌊q⌋ + 1

/-- Embedding of Python `round(q, 10)`: round to the nearest multiple of
`10⁻¹⁰`, ties to even. -/
def round10 (q : ℚ) : ℚ := (rhe (q * 10000000000) : ℚ) / 10000000000

/-- Embedding of Python `int(q)` applied to a float: truncation toward zero. -/
def pyint (q : ℚ) : ℤ := if 0 ≤ q then ⌊q⌋ else -⌊-q⌋

/-- Embedding of Python `math.ceil`. -/
def pyceil (q : ℚ) : ℤ := ⌈q⌉

theorem rhe_ge (q : ℚ) : q - 1/2 ≤ (rhe q : ℚ) := by
  have h1 : (⌊q⌋ : ℚ) ≤ q := Int.floor_le q
  have h2 : q < ⌊q⌋ + 1 := Int.lt_floor_add_one q
  unfold rhe
  split_ifs <;> push_cast <;> linarith

theorem rhe_le (q : ℚ) : (rhe q : ℚ) ≤ q + 1/2 := by
  have h1 : (⌊q⌋ : ℚ) ≤ q := Int.floor_le q
  have h2 : q < ⌊q⌋ + 1 := Int.lt_floor_add_one q
  unfold rhe
  split_ifs <;> push_cast <;> linarith

theorem rhe_mono {a b : ℚ} (h : a ≤ b) : rhe a ≤ rhe b := by
  by_contra hc
  push_neg at hc
  have h1 : (rhe b : ℚ) + 1 ≤ (rhe a : ℚ) := by exact_mod_cast Int.add_one_le_iff.mpr hc
  have h2 := rhe_le a
  have h3 := rhe_ge b
  have hab : a = b := le_antisymm h (by linarith)
  rw [hab] at hc
  exact lt_irrefl _ hc

theorem round10_mono {a b : ℚ} (h : a ≤ b) : round10 a ≤ round10 b := by
  unfold round10
  have : rhe (a * 10000000000) ≤ rhe (b * 10000000000) := rhe_mono (by nlinarith)
  have h10 : (0:ℚ) < 10000000000 := by norm_num
  exact (div_le_div_iff_of_pos_right h10).mpr (by exact_mod_cast this)

theorem lt_of_round10_lt {a b : ℚ} (h : round10 a < round10 b) : a < b := by
  by_contra hc
  push_neg at hc
  exact absurd (round10_mono hc) (not_le.mpr h)

/-- Adding at least two rounding ulps (`2·10⁻¹⁰`) always strictly increases
`round10`, even across a banker's-rounding tie. -/
theorem round10_lt_add {p b : ℚ} (hb : 2/10000000000 ≤ b) : round10 p < round10 (p + b) := by
  unfold round10
  have h10 : (0:ℚ) < 10000000000 := by norm_num
  have hmono : rhe (p * 10000000000 + 2) ≤ rhe ((p + b) * 10000000000) := by
    apply rhe_mono
    nlinarith
  have h1 : (rhe (p * 10000000000) : ℚ) ≤ p * 10000000000 + 1/2 := rhe_le _
  have h2 : p * 10000000000 + 2 - 1/2 ≤ (rhe (p * 10000000000 + 2) : ℚ) := rhe_ge _
  have hlt : (rhe (p * 10000000000) : ℚ) < (rhe ((p + b) * 10000000000) : ℚ) := by
    have : (rhe (p * 10000000000 + 2) : ℚ) ≤ (rhe ((p + b) * 10000000000) : ℚ) := by exact_mod_cast hmono
    linarith
  exact (div_lt_div_iff_of_pos_right h10).mpr hlt

/-- Floor bound used for the sweep generators: `pyint q ≤ q` for `0 ≤ q`. -/
theorem pyint_le {q : ℚ} (hq : 0 ≤ q) : (pyint q : ℚ) ≤ q := by
  unfold pyint
  rw [if_pos hq]
  exact Int.floor_le q

theorem pyint_toNat_le {q : ℚ} {m : ℕ} (hm : (pyint q).toNat = m) (h1 : 1 ≤ m) :
    (m : ℚ) ≤ q := by
  have hp : 1 ≤ pyint q := by omega
  have hq : 0 ≤ q := by
    by_contra hneg
    push_neg at hneg
    have h0 : 0 ≤ ⌊-q⌋ := Int.floor_nonneg.mpr (by linarith)
    unfold pyint at hp
    rw [if_neg (not_le.mpr hneg)] at hp
    omega
  have heq : (m : ℤ) = ⌊q⌋ := by
    unfold pyint at hm
    rw [if_pos hq] at hm
    omega
  have : ((m : ℤ) : ℚ) ≤ q := heq ▸ Int.floor_le q
  exact_mod_cast this

/-! ### Python dictionaries as insertion-ordered association lists -/

/-- Lookup in a Python dict modelled as an association list (first matching
key wins; all dict values in this development have unique keys). -/
def rlookup {β : Type} (k : ℕ) : List (ℕ × β) → Option β
  | [] => none
  | e :: t => if e.1 = k then some e.2 else rlookup k t

/-- Assignment `d[k] = v` on a Python dict: overwrite in place if the key is
present, else append at the end (dicts preserve insertion order). -/
def dictInsert {β : Type} (reg : List (ℕ × β)) (e : ℕ × β) : List (ℕ × β) :=
  if (rlookup e.1 reg).isSome then reg.map (fun p => if p.1 = e.1 then e else p)
  else reg ++ [e]

/-- Embedding of Python `dict.update`: later entries overwrite earlier ones. -/
def dictUpdate {β : Type} (reg new : List (ℕ × β)) : List (ℕ × β) :=
  new.foldl dictInsert reg

theorem rlookup_append {β : Type} (k : ℕ) (l₁ l₂ : List (ℕ × β)) :
    rlookup k (l₁ ++ l₂) =
      match rlookup k l₁ with
      | some v => some v
      | none => rlookup k l₂ := by
  induction l₁ with
  | nil => simp [rlookup]
  | cons e t ih =>
    by_cases h : e.1 = k <;> simp [rlookup, h, ih]

theorem rlookup_eq_none_of_not_mem {β : Type} {k : ℕ} {l : List (ℕ × β)}
    (h : k ∉ l.map Prod.fst) : rlookup k l = none := by
  induction l with
  | nil => rfl
  | cons p t ih =>
    simp only [List.map_cons, List.mem_cons] at h
    push_neg at h
    have : ¬ p.1 = k := fun he => h.1 he.symm
    simp only [rlookup, if_neg this]
    exact ih h.2

theorem rlookup_map_overwrite {β : Type} (k : ℕ) (e : ℕ × β) (l : List (ℕ × β)) :
    rlookup k (l.map (fun p => if p.1 = e.1 then e else p)) =
      if e.1 = k then (rlookup e.1 l).map (fun _ => e.2) else rlookup k l := by
  induction l with
  | nil => by_cases hk : e.1 = k <;> simp [rlookup, hk]
  | cons p t ih =>
    by_cases hp : p.1 = e.1
    · by_cases hk : e.1 = k
      · have hpk : p.1 = k := by rw [hp, hk]
        simp [rlookup, hp, hk, hpk]
      · have hpk : ¬ p.1 = k := by rw [hp]; exact hk
        simp only [List.map_cons, if_pos hp, rlookup, if_neg hk, if_neg hpk]
        rw [ih, if_neg hk]
    · by_cases hpk : p.1 = k
      · have hk : ¬ e.1 = k := fun he => hp (by rw [he, hpk])
        have hke : ¬ k = e.1 := fun he => hk he.symm
        simp [rlookup, hp, hpk, hk, hke]
      · simp only [List.map_cons, if_neg hp, rlookup, if_neg hpk]
        rw [ih]

theorem rlookup_dictInsert {β : Type} (k : ℕ) (reg : List (ℕ × β)) (e : ℕ × β) :
    rlookup k (dictInsert reg e) =
      if e.1 = k then some e.2 else rlookup k reg := by
  unfold dictInsert
  by_cases hmem : (rlookup e.1 reg).isSome
  · rw [if_pos hmem, rlookup_map_overwrite]
    by_cases hk : e.1 = k
    · rw [if_pos hk, if_pos hk]
      rcases h : rlookup e.1 reg with _ | v
      · rw [h] at hmem; simp at hmem
      · simp
    · rw [if_neg hk, if_neg hk]
  · rw [if_neg hmem, rlookup_append]
    by_cases hk : e.1 = k
    · subst hk
      rcases h : rlookup e.1 reg with _ | v
      · simp [rlookup]
      · rw [h] at hmem; simp at hmem
    · rcases h : rlookup k reg with _ | v
      · simp [rlookup, hk]
      · simp [hk]

theorem rlookup_dictUpdate {β : Type} (k : ℕ) (reg new : List (ℕ × β))
    (hnd : (new.map Prod.fst).Nodup) :
    rlookup k (dictUpdate reg new) =
      match rlookup k new with
      | some v => some v
      | none => rlookup k reg := by
  induction new generalizing reg with
  | nil => simp [dictUpdate, rlookup]
  | cons e t ih =>
    simp only [List.map_cons, List.nodup_cons] at hnd
    have step : dictUpdate reg (e :: t) = dictUpdate (dictInsert reg e) t := rfl
    rw [step, ih _ hnd.2]
    by_cases hk : e.1 = k
    · have hnone : rlookup k t = none :=
        rlookup_eq_none_of_not_mem (hk ▸ hnd.1)
      rw [hnone, rlookup_dictInsert, if_pos hk]
      simp [rlookup, hk]
    · rw [rlookup_dictInsert, if_neg hk]
      have hre : rlookup k (e :: t) = rlookup k t := by simp [rlookup, hk]
      rw [hre]

/-- Keys are never lost by a dict update. -/
theorem rlookup_dictUpdate_isSome {β : Type} (k : ℕ) (reg new : List (ℕ × β))
    (hnd : (new.map Prod.fst).Nodup) (h : (rlookup k reg).isSome) :
    (rlookup k (dictUpdate reg new)).isSome := by
  rw [rlookup_dictUpdate k reg new hnd]
  rcases rlookup k new with _ | v
  · exact h
  · simp

/-- Nodes and elements of the generated meshes are laid out as consecutively
named entries `base, base+1, ...` with the entry `base + j` carrying `f j`. -/
def rangeMap {β : Type} (base : ℕ) (f : ℕ → β) (L : ℕ) : List (ℕ × β) :=
  (List.range L).map fun j => (base + j, f j)

theorem rlookup_rangeMap {β : Type} (base : ℕ) (f : ℕ → β) (L : ℕ) (m : ℕ) :
    rlookup m (rangeMap base f L) =
      if base ≤ m ∧ m < base + L then some (f (m - base)) else none := by
  induction L with
  | zero =>
    have h0 : ¬ (base ≤ m ∧ m < base) := by omega
    simp [rangeMap, rlookup, h0]
  | succ n ih =>
    have : rangeMap base f (n + 1) = rangeMap base f n ++ [(base + n, f n)] := by
      simp [rangeMap, List.range_succ]
    rw [this, rlookup_append, ih]
    by_cases h1 : base ≤ m ∧ m < base + n
    · rw [if_pos h1, if_pos ⟨h1.1, by omega⟩]
    · rw [if_neg h1]
      by_cases h2 : base ≤ m ∧ m < base + (n + 1)
      · have hm : m = base + n := by omega
        rw [if_pos h2]
        simp [rlookup, hm]
      · have hm : ¬ base + n = m := by omega
        rw [if_neg h2]
        simp [rlookup, hm]

theorem rangeMap_keys_nodup {β : Type} (base : ℕ) (f : ℕ → β) (L : ℕ) :
    ((rangeMap base f L).map Prod.fst).Nodup := by
  have : (rangeMap base f L).map Prod.fst = (List.range L).map (fun j => base + j) := by
    simp [rangeMap]
  rw [this]
  exact List.Nodup.map (fun a b h => by omega) (List.nodup_range L)

theorem rangeMap_length {β : Type} (base : ℕ) (f : ℕ → β) (L : ℕ) :
    (rangeMap base f L).length = L := by
  simp [rangeMap]

/-- Option-valued map over a list (the effect of a loop whose body can fail). -/
def omap {α β : Type} (g : α → Option β) : List α → Option (List β)
  | [] => some []
  | x :: t =>
    match g x, omap g t with
    | some y, some r => some (y :: r)
    | _, _ => none

theorem omap_mem {α β : Type} (g : α → Option β) (l : List α) (r : List β)
    (h : omap g l = some r) : ∀ y ∈ r, ∃ x ∈ l, g x = some y := by
  induction l generalizing r with
  | nil => simp [omap] at h; subst h; simp
  | cons x t ih =>
    simp only [omap] at h
    rcases hx : g x with _ | y <;> rw [hx] at h
    · exact absurd h (by simp)
    · rcases ht : omap g t with _ | s <;> rw [ht] at h
      · exact absurd h (by simp)
      · simp only [Option.some.injEq] at h
        subst h
        intro z hz
        rcases List.mem_cons.mp hz with hz | hz
        · exact ⟨x, List.mem_cons_self x t, hz ▸ hx⟩
        · obtain ⟨w, hw, hgw⟩ := ih s ht z hz
          exact ⟨w, List.mem_cons_of_mem x hw, hgw⟩

theorem omap_isSome {α β : Type} (g : α → Option β) (l : List α)
    (h : ∀ x ∈ l, (g x).isSome) : (omap g l).isSome := by
  induction l with
  | nil => simp [omap]
  | cons x t ih =>
    have hx := h x (List.mem_cons_self x t)
    rcases hgx : g x with _ | y
    · rw [hgx] at hx; simp at hx
    · have ht := ih (fun z hz => h z (List.mem_cons_of_mem x hz))
      rcases hot : omap g t with _ | r
      · rw [hot] at ht; simp at ht
      · simp [omap, hgx, hot]

theorem omap_length {α β : Type} (g : α → Option β) (l : List α) (r : List β)
    (h : omap g l = some r) : r.length = l.length := by
  induction l generalizing r with
  | nil => simp [omap] at h; subst h; rfl
  | cons x t ih =>
    simp only [omap] at h
    rcases hx : g x with _ | y <;> rw [hx] at h
    · exact absurd h (by simp)
    · rcases ht : omap g t with _ | s <;> rw [ht] at h
      · exact absurd h (by simp)
      · simp only [Option.some.injEq] at h
        subst h
        simp [ih s ht]

/-! ### Revolved node records and the two ring generators

`AnnulusRingMesh._generate` and `AnnulusTransRingMesh._generate` are embedded
below.  A node's three global coordinates are kept in the lossless polar form
`PNode` (see the module comment); the per-index value functions are direct
transcriptions of the source loops, with angles divided by `2π` (the source
angle `theta*(i-1)` with `theta = 2*pi/n` becomes the turn `(i-1)/n`). -/

structure PNode where
  radius : ℚ
  turn : ℚ
  off : ℚ
  stamp : ℕ
deriving DecidableEq, Repr

/-- Node `i` (1-based) of `AnnulusRingMesh._generate`: nodes `1..n` sit at the
inner radius `r1` with angle `theta*(i-1)`, nodes `n+1..2n` at the outer
radius `r2` with angle `theta*((i-n)-1)`. -/
def ringNodeVal (r1 r2 : ℚ) (c : ℕ) (o : ℚ) (stamp i : ℕ) : PNode :=
  if i ≤ c then ⟨r1, ((i:ℚ) - 1)/(c:ℚ), o, stamp⟩
  else ⟨r2, ((i:ℚ) - (c:ℚ) - 1)/(c:ℚ), o, stamp⟩

/-- Registry written by `AnnulusRingMesh._generate`: names `startN..startN+2c-1`. -/
def plainRingNodes (r1 r2 : ℚ) (c : ℕ) (o : ℚ) (stamp startN : ℕ) : List (ℕ × PNode) :=
  rangeMap startN (fun k => ringNodeVal r1 r2 c o stamp (k+1)) (2*c)

/-- Accumulated angle (in turns) of the `k`-th mid-radius node of
`AnnulusTransRingMesh._generate` (`k = i - n`), transcribing the source's
running `angle` variable: `angle = theta2` for the first mid node, then
`angle += theta2` when `i - n` is even and `angle += 2*theta2` otherwise. -/
def midTurn (n : ℕ) : ℕ → ℚ
  | 0 => 0
  | 1 => 1/(3*(n:ℚ))
  | k+2 => midTurn n (k+1) + (if (k+2) % 2 = 0 then 1/(3*(n:ℚ)) else 2/(3*(n:ℚ)))

/-- Node `i` (1-based) of `AnnulusTransRingMesh._generate`: `1..n` at the
inner radius, `n+1..3n` at the centre radius `(r1+r3)/2`, `3n+1..6n` at the
outer radius (the source's special case `angle = 0` for `i - 3n == 1`
coincides with the general formula `theta3*((i-3n)-1)`). -/
def transNodeVal (r1 r3 : ℚ) (n : ℕ) (o : ℚ) (stamp i : ℕ) : PNode :=
  if i ≤ n then ⟨r1, ((i:ℚ) - 1)/(n:ℚ), o, stamp⟩
  else if i ≤ 3*n then ⟨(r1+r3)/2, midTurn n (i - n), o, stamp⟩
  else ⟨r3, ((i:ℚ) - 3*(n:ℚ) - 1)/(3*(n:ℚ)), o, stamp⟩

/-- Registry written by `AnnulusTransRingMesh._generate`: names
`startN..startN+6n-1`. -/
def transRingNodes (r1 r3 : ℚ) (n : ℕ) (o : ℚ) (stamp startN : ℕ) : List (ℕ × PNode) :=
  rangeMap startN (fun k => transNodeVal r1 r3 n o stamp (k+1)) (6*n)

/-- Corner indices `(i_node, j_node, m_node, n_node)` of element `i` of
`AnnulusRingMesh._generate` (1-based, wrapping at `i = n`). -/
def ringRefs (c i : ℕ) : ℕ × ℕ × ℕ × ℕ :=
  if i ≠ c then (i + c, i + 1 + c, i + 1, i) else (i + c, 1 + c, 1, i)

/-- Corner indices `(i_node, j_node, m_node, n_node)` of element `i` of
`AnnulusTransRingMesh._generate`, transcribing the four-way branch on
`i ≤ n` and `(i - n) % 3`. -/
def transRefs (n i : ℕ) : ℕ × ℕ × ℕ × ℕ :=
  if i ≤ n then (2*i + n - 1, 2*i + n, if i ≠ n then i + 1 else 1, i)
  else if (i - n) % 3 = 1 then
    (i + 2*n, i + 2*n + 1, i - (i - (n+1))/3, 1 + (i - (n+1))/3)
  else if (i - n) % 3 = 2 then
    (i + 2*n, i + 2*n + 1, i - (i - (n+1))/3, i - 1 - (i - (n+1))/3)
  else
    (i + 2*n, if i ≠ 4*n then i + 2*n + 1 else 1 + 3*n,
     if i ≠ 4*n then 2 + (i - (n+1))/3 else 1, i - 1 - (i - (n+1))/3)

/-- Name of the node or element with 1-based index `idx` in a mesh whose first
name is `startN` (the source's `idx + offset` with `offset = startN - 1`). -/
def nameOf (startN idx : ℕ) : ℕ := startN + idx - 1

/-- The non-owning reference an element holds to a node: the node's name
together with the node record it pointed at when the element was built. -/
structure Corner where
  name : ℕ
  nd : PNode
deriving DecidableEq, Repr

/-- Quadrilateral element record: corners in source order `(i, j, m, n)`. -/
structure AElem where
  ci : Corner
  cj : Corner
  cm : Corner
  cn : Corner
deriving DecidableEq, Repr

/-- Resolve a 1-based node index against a ring's own registry, as
`self.nodes['N' + str(idx + node_offset)]` does. -/
def mkCorner (nds : List (ℕ × PNode)) (startN idx : ℕ) : Option Corner :=
  (rlookup (nameOf startN idx) nds).map (fun v => ⟨nameOf startN idx, v⟩)

/-- Element `i` of a plain ring, built from its four corner indices. -/
def ringElemAt (nds : List (ℕ × PNode)) (c startN startQ i : ℕ) : Option (ℕ × AElem) :=
  let r := ringRefs c i
  match mkCorner nds startN r.1, mkCorner nds startN r.2.1,
        mkCorner nds startN r.2.2.1, mkCorner nds startN r.2.2.2 with
  | some a, some b, some m, some nn => some (nameOf startQ i, ⟨a, b, m, nn⟩)
  | _, _, _, _ => none

def plainRingElems (nds : List (ℕ × PNode)) (c startN startQ : ℕ) :
    Option (List (ℕ × AElem)) :=
  omap (fun k => ringElemAt nds c startN startQ (k+1)) (List.range c)

/-- Element `i` of a transition ring. -/
def transElemAt (nds : List (ℕ × PNode)) (n startN startQ i : ℕ) : Option (ℕ × AElem) :=
  let r := transRefs n i
  match mkCorner nds startN r.1, mkCorner nds startN r.2.1,
        mkCorner nds startN r.2.2.1, mkCorner nds startN r.2.2.2 with
  | some a, some b, some m, some nn => some (nameOf startQ i, ⟨a, b, m, nn⟩)
  | _, _, _, _ => none

def transRingElems (nds : List (ℕ × PNode)) (n startN startQ : ℕ) :
    Option (List (ℕ × AElem)) :=
  omap (fun k => transElemAt nds n startN startQ (k+1)) (List.range (4*n))

theorem ringRefs_range (c i : ℕ) (hc : 1 ≤ c) (h1 : 1 ≤ i) (h2 : i ≤ c) :
    (1 ≤ (ringRefs c i).1 ∧ (ringRefs c i).1 ≤ 2*c) ∧
    (1 ≤ (ringRefs c i).2.1 ∧ (ringRefs c i).2.1 ≤ 2*c) ∧
    (1 ≤ (ringRefs c i).2.2.1 ∧ (ringRefs c i).2.2.1 ≤ 2*c) ∧
    (1 ≤ (ringRefs c i).2.2.2 ∧ (ringRefs c i).2.2.2 ≤ 2*c) := by
  unfold ringRefs
  split_ifs <;> simp <;> omega

theorem transRefs_range (n i : ℕ) (hn : 1 ≤ n) (h1 : 1 ≤ i) (h2 : i ≤ 4*n) :
    (1 ≤ (transRefs n i).1 ∧ (transRefs n i).1 ≤ 6*n) ∧
    (1 ≤ (transRefs n i).2.1 ∧ (transRefs n i).2.1 ≤ 6*n) ∧
    (1 ≤ (transRefs n i).2.2.1 ∧ (transRefs n i).2.2.1 ≤ 6*n) ∧
    (1 ≤ (transRefs n i).2.2.2 ∧ (transRefs n i).2.2.2 ≤ 6*n) := by
  unfold transRefs
  split_ifs <;> simp <;> omega

/-- For at least two inner sectors, every transition-ring element has four
pairwise distinct corner indices.  (For `n = 1` this fails: element 1 gets
`m_node = n_node = 1`.) -/
theorem transRefs_distinct (n i : ℕ) (hn : 2 ≤ n) (h1 : 1 ≤ i) (h2 : i ≤ 4*n) :
    (transRefs n i).1 ≠ (transRefs n i).2.1 ∧
    (transRefs n i).1 ≠ (transRefs n i).2.2.1 ∧
    (transRefs n i).1 ≠ (transRefs n i).2.2.2 ∧
    (transRefs n i).2.1 ≠ (transRefs n i).2.2.1 ∧
    (transRefs n i).2.1 ≠ (transRefs n i).2.2.2 ∧
    (transRefs n i).2.2.1 ≠ (transRefs n i).2.2.2 := by
  unfold transRefs
  split_ifs <;> simp <;> omega

theorem mkCorner_rangeMap {f : ℕ → PNode} {L startN idx : ℕ}
    (h1 : 1 ≤ idx) (h2 : idx ≤ L) :
    mkCorner (rangeMap startN (fun k => f (k+1)) L) startN idx
      = some ⟨startN + idx - 1, f idx⟩ := by
  unfold mkCorner nameOf
  rw [rlookup_rangeMap]
  have hin : startN ≤ startN + idx - 1 ∧ startN + idx - 1 < startN + L := by omega
  rw [if_pos hin]
  have : startN + idx - 1 - startN + 1 = idx := by omega
  simp [this]

theorem transElemAt_eq (r1 r3 o : ℚ) (n stamp startN startQ i : ℕ)
    (hn : 1 ≤ n) (h1 : 1 ≤ i) (h2 : i ≤ 4*n) :
    transElemAt (transRingNodes r1 r3 n o stamp startN) n startN startQ i
      = some (nameOf startQ i,
          ⟨⟨startN + (transRefs n i).1 - 1, transNodeVal r1 r3 n o stamp (transRefs n i).1⟩,
           ⟨startN + (transRefs n i).2.1 - 1, transNodeVal r1 r3 n o stamp (transRefs n i).2.1⟩,
           ⟨startN + (transRefs n i).2.2.1 - 1, transNodeVal r1 r3 n o stamp (transRefs n i).2.2.1⟩,
           ⟨startN + (transRefs n i).2.2.2 - 1, transNodeVal r1 r3 n o stamp (transRefs n i).2.2.2⟩⟩) := by
  have hr := transRefs_range n i hn h1 h2
  simp only [transElemAt, transRingNodes]
  rw [mkCorner_rangeMap hr.1.1 hr.1.2, mkCorner_rangeMap hr.2.1.1 hr.2.1.2,
      mkCorner_rangeMap hr.2.2.1.1 hr.2.2.1.2, mkCorner_rangeMap hr.2.2.2.1 hr.2.2.2.2]

theorem ringElemAt_eq (r1 r2 o : ℚ) (c stamp startN startQ i : ℕ)
    (hc : 1 ≤ c) (h1 : 1 ≤ i) (h2 : i ≤ c) :
    ringElemAt (plainRingNodes r1 r2 c o stamp startN) c startN startQ i
      = some (nameOf startQ i,
          ⟨⟨startN + (ringRefs c i).1 - 1, ringNodeVal r1 r2 c o stamp (ringRefs c i).1⟩,
           ⟨startN + (ringRefs c i).2.1 - 1, ringNodeVal r1 r2 c o stamp (ringRefs c i).2.1⟩,
           ⟨startN + (ringRefs c i).2.2.1 - 1, ringNodeVal r1 r2 c o stamp (ringRefs c i).2.2.1⟩,
           ⟨startN + (ringRefs c i).2.2.2 - 1, ringNodeVal r1 r2 c o stamp (ringRefs c i).2.2.2⟩⟩) := by
  have hr := ringRefs_range c i hc h1 h2
  simp only [ringElemAt, plainRingNodes]
  rw [mkCorner_rangeMap hr.1.1 hr.1.2, mkCorner_rangeMap hr.2.1.1 hr.2.1.2,
      mkCorner_rangeMap hr.2.2.1.1 hr.2.2.1.2, mkCorner_rangeMap hr.2.2.2.1 hr.2.2.2.2]

/-- Conclusion of claim C1 (with the inner sector count as a hypothesis of the
theorem): the transition ring has 6n nodes laid out n/2n/3n over the three
radii, and 4n elements whose four node references are pairwise distinct and
resolve, by name, to exactly the node records of the ring's registry. -/
def C1Prop (n : ℕ) (r1 r3 o : ℚ) (stamp startN startQ : ℕ) : Prop :=
  (transRingNodes r1 r3 n o stamp startN).length = 6*n
  ∧ (∀ k, k < 6*n →
      rlookup (startN + k) (transRingNodes r1 r3 n o stamp startN)
        = some (transNodeVal r1 r3 n o stamp (k+1)))
  ∧ (∀ i, 1 ≤ i → i ≤ n → (transNodeVal r1 r3 n o stamp i).radius = r1)
  ∧ (∀ i, n < i → i ≤ 3*n → (transNodeVal r1 r3 n o stamp i).radius = (r1+r3)/2)
  ∧ (∀ i, 3*n < i → i ≤ 6*n → (transNodeVal r1 r3 n o stamp i).radius = r3)
  ∧ ∃ es, transRingElems (transRingNodes r1 r3 n o stamp startN) n startN startQ = some es
      ∧ es.length = 4*n
      ∧ ∀ p ∈ es,
          (p.2.ci.name ≠ p.2.cj.name ∧ p.2.ci.name ≠ p.2.cm.name ∧
           p.2.ci.name ≠ p.2.cn.name ∧ p.2.cj.name ≠ p.2.cm.name ∧
           p.2.cj.name ≠ p.2.cn.name ∧ p.2.cm.name ≠ p.2.cn.name)
          ∧ rlookup p.2.ci.name (transRingNodes r1 r3 n o stamp startN) = some p.2.ci.nd
          ∧ rlookup p.2.cj.name (transRingNodes r1 r3 n o stamp startN) = some p.2.cj.nd
          ∧ rlookup p.2.cm.name (transRingNodes r1 r3 n o stamp startN) = some p.2.cm.nd
          ∧ rlookup p.2.cn.name (transRingNodes r1 r3 n o stamp startN) = some p.2.cn.nd

/-- C1 (amended: the inner sector count must be at least 2; for `n = 1` the
first element is degenerate, see `C1_counterexample`): `AnnulusTransRingMesh`
generation produces exactly 6n nodes — n at radius r1, 2n at `(r1+r3)/2`,
3n at r3, so the outer edge has 3n nodes — and exactly 4n elements, each with
four pairwise distinct node references resolving to registry records. -/
theorem C1_trans_ring_fanout (n : ℕ) (hn : 2 ≤ n) (r1 r3 o : ℚ)
    (stamp startN startQ : ℕ) : C1Prop n r1 r3 o stamp startN startQ := by
  have hn1 : 1 ≤ n := by omega
  refine ⟨rangeMap_length _ _ _, ?_, ?_, ?_, ?_, ?_⟩
  · intro k hk
    unfold transRingNodes
    rw [rlookup_rangeMap]
    have : startN ≤ startN + k ∧ startN + k < startN + 6*n := by omega
    rw [if_pos this]
    simp
  · intro i h1 h2
    unfold transNodeVal
    rw [if_pos h2]
  · intro i h1 h2
    unfold transNodeVal
    rw [if_neg (by omega), if_pos h2]
  · intro i h1 h2
    unfold transNodeVal
    rw [if_neg (by omega), if_neg (by omega)]
  · have hsome : (transRingElems (transRingNodes r1 r3 n o stamp startN) n startN startQ).isSome := by
      apply omap_isSome
      intro k hk
      have hk' : k < 4*n := List.mem_range.mp hk
      rw [transElemAt_eq r1 r3 o n stamp startN startQ (k+1) hn1 (by omega) (by omega)]
      rfl
    rcases hes : transRingElems (transRingNodes r1 r3 n o stamp startN) n startN startQ with _ | es
    · rw [hes] at hsome; exact absurd hsome (by simp)
    · refine ⟨es, rfl, ?_, ?_⟩
      · have := omap_length _ _ _ hes
        simpa using this
      · intro p hp
        obtain ⟨k, hkmem, hgk⟩ := omap_mem _ _ _ hes p hp
        have hk' : k < 4*n := List.mem_range.mp hkmem
        rw [transElemAt_eq r1 r3 o n stamp startN startQ (k+1) hn1 (by omega) (by omega)] at hgk
        have hd := transRefs_distinct n (k+1) hn (by omega) (by omega)
        have hr := transRefs_range n (k+1) hn1 (by omega) (by omega)
        have hpe : p = (nameOf startQ (k+1),
            ⟨⟨startN + (transRefs n (k+1)).1 - 1, transNodeVal r1 r3 n o stamp (transRefs n (k+1)).1⟩,
             ⟨startN + (transRefs n (k+1)).2.1 - 1, transNodeVal r1 r3 n o stamp (transRefs n (k+1)).2.1⟩,
             ⟨startN + (transRefs n (k+1)).2.2.1 - 1, transNodeVal r1 r3 n o stamp (transRefs n (k+1)).2.2.1⟩,
             ⟨startN + (transRefs n (k+1)).2.2.2 - 1, transNodeVal r1 r3 n o stamp (transRefs n (k+1)).2.2.2⟩⟩) :=
          (Option.some.inj hgk).symm
        subst hpe
        have hlk : ∀ idx, 1 ≤ idx → idx ≤ 6*n →
            rlookup (startN + idx - 1) (transRingNodes r1 r3 n o stamp startN)
              = some (transNodeVal r1 r3 n o stamp idx) := by
          intro idx ha hb
          unfold transRingNodes
          rw [rlookup_rangeMap]
          have : startN ≤ startN + idx - 1 ∧ startN + idx - 1 < startN + 6*n := by omega
          rw [if_pos this]
          have heq : startN + idx - 1 - startN + 1 = idx := by omega
          simp [heq]
        refine ⟨⟨?_, ?_, ?_, ?_, ?_, ?_⟩, ?_, ?_, ?_, ?_⟩ <;>
          simp only []
        · exact fun hcon => hd.1 (by omega)
        · exact fun hcon => hd.2.1 (by omega)
        · exact fun hcon => hd.2.2.1 (by omega)
        · exact fun hcon => hd.2.2.2.1 (by omega)
        · exact fun hcon => hd.2.2.2.2.1 (by omega)
        · exact fun hcon => hd.2.2.2.2.2 (by omega)
        · exact hlk _ hr.1.1 hr.1.2
        · exact hlk _ hr.2.1.1 hr.2.1.2
        · exact hlk _ hr.2.2.1.1 hr.2.2.1.2
        · exact hlk _ hr.2.2.2.1 hr.2.2.2.2

/-- C1 counterexample: for `num_inner_quads = 1` (a positive inner sector
count), element `Q1` of the transition ring has `m_node = n_node = 'N1'` —
its four node references are not pairwise distinct, refuting the claim as
stated for every positive `n`. -/
theorem C1_counterexample :
    ((transRingElems (transRingNodes 1 2 1 0 0 1) 1 1 1).bind (rlookup 1)).map
        (fun e => (e.cm.name, e.cn.name)) = some (1, 1) := by
  with_unfolding_all decide

/-- C1 witness: the amended theorem applied at `n = 2`, `r1 = 1`, `r3 = 2`. -/
theorem C1_witness : 2 ≤ 2 ∧ C1Prop 2 1 2 0 0 1 1 :=
  ⟨by norm_num, C1_trans_ring_fanout 2 (by norm_num) 1 2 0 0 1 1⟩

/-! ### The radial sweep of `AnnulusMesh._generate` -/

/-- Loop state of the radial sweep: current inner radius, current sector
count `n_circ`, next node number `n`, next element number `q`, the mesh's
node and element dicts, and how many rings have been emitted. -/
structure ASt where
  r : ℚ
  c : ℕ
  nn : ℕ
  qq : ℕ
  reg : List (ℕ × PNode)
  els : List (ℕ × AElem)
  rings : ℕ
deriving DecidableEq, Repr

/-- Initial sector count `n_circ = int(2*pi*r_inner/mesh_size)` (no lower
clamp in the source). -/
def annulusInitCount (rIn s : ℚ) : ℕ := (pyint (2*mpi*rIn/s)).toNat

def annulusInit (rIn s : ℚ) (n0 q0 : ℕ) : ASt :=
  ⟨rIn, annulusInitCount rIn s, n0, q0, [], [], 0⟩

/-- Circumferential element width `b_circ = 2*pi*r_inner/n_circ` at the
sweep state `st`. -/
def annulusB (st : ASt) : ℚ := 2*mpi*st.r / (st.c : ℚ)

/-- Radial division count `n_rad = int(radial/min(mesh_size, 3*b_circ))`. -/
def annulusNrad (s rOut : ℚ) (st : ASt) : ℕ :=
  (pyint ((rOut - st.r) / min s (3 * annulusB st))).toNat

/-- Ring height `h_rad = radial/n_rad`. -/
def annulusH (s rOut : ℚ) (st : ASt) : ℚ :=
  (rOut - st.r) / ((annulusNrad s rOut st : ℚ))

/-- One iteration of the radial sweep loop body.  `none` models the
`ZeroDivisionError` raised when `n_circ = 0` (`b_circ = circumf/n_circ`) or
`n_rad = 0` (`h_rad = radial/n_rad`). -/
def annulusStep (s rOut o : ℚ) (st : ASt) : Option ASt :=
  if st.c = 0 then none else
  if annulusNrad s rOut st = 0 then none else
  if 3*s < annulusB st then
    match transRingElems (transRingNodes st.r (st.r + annulusH s rOut st) st.c o st.rings st.nn)
        st.c st.nn st.qq with
    | none => none
    | some es => some ⟨st.r + annulusH s rOut st, 3*st.c, st.nn + 3*st.c, st.qq + 4*st.c,
        dictUpdate st.reg
          (transRingNodes st.r (st.r + annulusH s rOut st) st.c o st.rings st.nn),
        dictUpdate st.els es, st.rings + 1⟩
  else
    match plainRingElems (plainRingNodes st.r (st.r + annulusH s rOut st) st.c o st.rings st.nn)
        st.c st.nn st.qq with
    | none => none
    | some es => some ⟨st.r + annulusH s rOut st, st.c, st.nn + st.c, st.qq + st.c,
        dictUpdate st.reg
          (plainRingNodes st.r (st.r + annulusH s rOut st) st.c o st.rings st.nn),
        dictUpdate st.els es, st.rings + 1⟩

/-- The sweep loop `while round(r_inner, 10) < round(r_outer, 10)`, with
explicit fuel (running out of fuel while the guard still holds yields
`none`, never a fake result). -/
def annulusLoop (s rOut o : ℚ) : ℕ → ASt → Option ASt
  | 0, st => if round10 st.r < round10 rOut then none else some st
  | f+1, st =>
    if round10 st.r < round10 rOut then (annulusStep s rOut o st).bind (annulusLoop s rOut o f)
    else some st

/-- The repair pass at the end of `AnnulusMesh._generate`: re-attach every
element corner to the record currently registered under the corner's name. -/
def repointElem (reg : List (ℕ × PNode)) (e : AElem) : Option AElem :=
  match rlookup e.ci.name reg, rlookup e.cj.name reg,
        rlookup e.cm.name reg, rlookup e.cn.name reg with
  | some a, some b, some m, some nn =>
      some ⟨⟨e.ci.name, a⟩, ⟨e.cj.name, b⟩, ⟨e.cm.name, m⟩, ⟨e.cn.name, nn⟩⟩
  | _, _, _, _ => none

structure AMesh where
  reg : List (ℕ × PNode)
  els : List (ℕ × AElem)
  rings : ℕ
  cOut : ℕ
deriving DecidableEq, Repr

/-- Full embedding of `AnnulusMesh._generate`: run the radial sweep, then
repoint every element to the surviving node records. -/
def annulusGen (fuel : ℕ) (s rIn rOut o : ℚ) (n0 q0 : ℕ) : Option AMesh :=
  (annulusLoop s rOut o fuel (annulusInit rIn s n0 q0)).bind fun st =>
  (omap (fun p : ℕ × AElem => (repointElem st.reg p.2).map (fun e => (p.1, e))) st.els).map
    fun es => ⟨st.reg, es, st.rings, st.c⟩

/-- Conclusion of claim C3 about one loop iteration: the radial division
count formula, the ring height, the transition test `b_circ > 3*mesh_size`
and the tripling of the sector count, phrased through the observable
successor state and the ring registries actually written. -/
def C3StepProp (s rOut o : ℚ) (st : ASt) : Prop :=
  annulusNrad s rOut st = (pyint ((rOut - st.r) / min s (3*(2*mpi*st.r/(st.c:ℚ))))).toNat
  ∧ 1 ≤ annulusNrad s rOut st
  ∧ (annulusStep s rOut o st).map (fun st' => st'.r)
      = some (st.r + (rOut - st.r)/((annulusNrad s rOut st : ℚ)))
  ∧ (3*s < 2*mpi*st.r/(st.c:ℚ) →
      (annulusStep s rOut o st).map (fun st' => (st'.c, st'.nn, st'.qq, st'.reg))
        = some (3*st.c, st.nn + 3*st.c, st.qq + 4*st.c,
            dictUpdate st.reg
              (transRingNodes st.r (st.r + annulusH s rOut st) st.c o st.rings st.nn)))
  ∧ (¬ 3*s < 2*mpi*st.r/(st.c:ℚ) →
      (annulusStep s rOut o st).map (fun st' => (st'.c, st'.nn, st'.qq, st'.reg))
        = some (st.c, st.nn + st.c, st.qq + st.c,
            dictUpdate st.reg
              (plainRingNodes st.r (st.r + annulusH s rOut st) st.c o st.rings st.nn)))

/-- C3 (amended: the initial circumferential sector count is
`floor(2*pi*inner_radius/mesh_size)` with NO lower clamp — when that floor is
0 the sweep fails by division by zero instead of proceeding with one sector,
see `C3_counterexample`): on each ring the radial division count is
`floor(radial_depth / min(mesh_size, 3*b_circ))`, and a transition ring is
emitted — tripling the sector count for this ring and all later rings —
exactly when `b_circ > 3*mesh_size`, a plain ring otherwise. -/
theorem C3_sweep_controls (s rOut o : ℚ) (st : ASt)
    (hsome : (annulusStep s rOut o st).isSome) :
    C3StepProp s rOut o st
    ∧ ∀ (rIn s' : ℚ) (n0 q0 : ℕ),
        (annulusInit rIn s' n0 q0).c = (pyint (2*mpi*rIn/s')).toNat := by
  refine ⟨?_, fun rIn s' n0 q0 => rfl⟩
  by_cases hc : st.c = 0
  · exfalso
    unfold annulusStep at hsome
    rw [if_pos hc] at hsome
    simp at hsome
  by_cases hnr : annulusNrad s rOut st = 0
  · exfalso
    unfold annulusStep at hsome
    rw [if_neg hc, if_pos hnr] at hsome
    simp at hsome
  have htie : annulusNrad s rOut st
      = (pyint ((rOut - st.r) / min s (3*(2*mpi*st.r/(st.c:ℚ))))).toNat := rfl
  have hB : annulusB st = 2*mpi*st.r/(st.c:ℚ) := rfl
  refine ⟨htie, by omega, ?_, ?_, ?_⟩
  · unfold annulusStep
    rw [if_neg hc, if_neg hnr]
    by_cases htr : 3*s < annulusB st
    · rw [if_pos htr]
      rcases hes : transRingElems
          (transRingNodes st.r (st.r + annulusH s rOut st) st.c o st.rings st.nn)
          st.c st.nn st.qq with _ | es
      · exfalso
        unfold annulusStep at hsome
        rw [if_neg hc, if_neg hnr, if_pos htr, hes] at hsome
        simp at hsome
      · simp [annulusH]
    · rw [if_neg htr]
      rcases hes : plainRingElems
          (plainRingNodes st.r (st.r + annulusH s rOut st) st.c o st.rings st.nn)
          st.c st.nn st.qq with _ | es
      · exfalso
        unfold annulusStep at hsome
        rw [if_neg hc, if_neg hnr, if_neg htr, hes] at hsome
        simp at hsome
      · simp [annulusH]
  · intro htr
    rw [← hB] at htr
    unfold annulusStep
    rw [if_neg hc, if_neg hnr, if_pos htr]
    rcases hes : transRingElems
        (transRingNodes st.r (st.r + annulusH s rOut st) st.c o st.rings st.nn)
        st.c st.nn st.qq with _ | es
    · exfalso
      unfold annulusStep at hsome
      rw [if_neg hc, if_neg hnr, if_pos htr, hes] at hsome
      simp at hsome
    · simp
  · intro htr
    rw [← hB] at htr
    unfold annulusStep
    rw [if_neg hc, if_neg hnr, if_neg htr]
    rcases hes : plainRingElems
        (plainRingNodes st.r (st.r + annulusH s rOut st) st.c o st.rings st.nn)
        st.c st.nn st.qq with _ | es
    · exfalso
      unfold annulusStep at hsome
      rw [if_neg hc, if_neg hnr, if_neg htr, hes] at hsome
      simp at hsome
    · simp

/-- C3 counterexample: for `inner_radius = 1`, `mesh_size = 10` the source
computes `n_circ = int(2*pi*1/10) = 0` — not the claimed clamped value
`max(1, floor(2*pi/10)) = 1` — and generation then fails (division by zero)
instead of emitting any ring. -/
theorem C3_counterexample :
    annulusInitCount 1 10 = 0
    ∧ max 1 ((pyint (2*mpi*1/10)).toNat) = 1
    ∧ annulusGen 5 10 1 2 0 1 1 = none := by
  refine ⟨?_, ?_, ?_⟩ <;> with_unfolding_all decide

/-- C3 witness: a successful first iteration (`mesh_size = 1`, inner radius 1,
outer radius 3: six sectors, one radial division of the remaining depth 2). -/
theorem C3_witness :
    (annulusStep 1 3 0 (annulusInit 1 1 1 1)).isSome = true
    ∧ (C3StepProp 1 3 0 (annulusInit 1 1 1 1)
       ∧ ∀ (rIn s' : ℚ) (n0 q0 : ℕ),
           (annulusInit rIn s' n0 q0).c = (pyint (2*mpi*rIn/s')).toNat) :=
  ⟨by with_unfolding_all decide,
   C3_sweep_controls 1 3 0 (annulusInit 1 1 1 1) (by with_unfolding_all decide)⟩

/-! ### Coordinate view and ring layout facts, toward the merge-dedup claim -/

/-- The coordinate content of a node record (identity `stamp` stripped): in
the polar embedding two revolved nodes of the same mesh occupy the same
spatial point exactly when these triples agree (see `toCart_inj` below). -/
def coords (p : PNode) : ℚ × ℚ × ℚ := (p.radius, p.turn, p.off)

/-- No two distinct registry entries carry equal coordinates. -/
def RegInj (reg : List (ℕ × PNode)) : Prop :=
  ∀ k k' v v', rlookup k reg = some v → rlookup k' reg = some v' → k ≠ k' →
    coords v ≠ coords v'

/-- Numerator of the accumulated mid-radius angle: the `k`-th mid node sits at
`(3*((k-1)/2) + 1 + (k-1)%2)` thirds of an inner sector. -/
def midIdx (k : ℕ) : ℕ := 3*((k-1)/2) + 1 + (k-1) % 2

theorem midTurn_eq (n : ℕ) : ∀ k, 1 ≤ k → midTurn n k = (midIdx k : ℚ) / (3*(n:ℚ)) := by
  intro k
  induction k with
  | zero => omega
  | succ m ih =>
    intro _
    match m, ih with
    | 0, _ =>
      simp [midTurn, midIdx]
    | mm+1, ih =>
      have hrec : midTurn n (mm+2) = midTurn n (mm+1)
          + (if (mm+2) % 2 = 0 then 1/(3*(n:ℚ)) else 2/(3*(n:ℚ))) := rfl
      rw [hrec, ih (by omega)]
      by_cases hp : (mm+2) % 2 = 0
      · have hidx : midIdx (mm+2) = midIdx (mm+1) + 1 := by unfold midIdx; omega
        rw [if_pos hp, hidx]
        push_cast
        ring
      · have hidx : midIdx (mm+2) = midIdx (mm+1) + 2 := by unfold midIdx; omega
        rw [if_neg hp, hidx]
        push_cast
        ring

theorem midIdx_strict_mono : ∀ a b, 1 ≤ a → a < b → midIdx a < midIdx b := by
  intro a b h1 h2
  unfold midIdx
  omega

theorem midIdx_bounds (k n : ℕ) (h1 : 1 ≤ k) (h2 : k ≤ 2*n) :
    1 ≤ midIdx k ∧ midIdx k ≤ 3*n - 1 := by
  unfold midIdx
  omega

/-- Abstract layout of one generated ring at inner radius `r`, height `hh`,
inner sector count `c`, outer sector count `cOut`, with `L` nodes in total
(value of node `idx` given by `g idx`).  `M = L - cOut` is the number of node
names consumed before the new outer boundary starts. -/
structure RingShape (o r hh : ℚ) (stamp c cOut L : ℕ) (g : ℕ → PNode) : Prop where
  c_le : c ≤ L - cOut
  hL : L = (L - cOut) + cOut
  inner_val : ∀ idx, 1 ≤ idx → idx ≤ c →
    g idx = ⟨r, ((idx:ℚ) - 1)/(c:ℚ), o, stamp⟩
  outer_val : ∀ idx, L - cOut < idx → idx ≤ L →
    (g idx).radius = r + hh ∧ (g idx).turn = ((idx:ℚ) - ((L - cOut : ℕ):ℚ) - 1)/(cOut:ℚ)
      ∧ (g idx).off = o
  mid_rad : ∀ idx, c < idx → idx ≤ L - cOut →
    r < (g idx).radius ∧ (g idx).radius < r + hh ∧ (g idx).off = o
  turn_bounds : ∀ idx, 1 ≤ idx → idx ≤ L → 0 ≤ (g idx).turn ∧ (g idx).turn < 1
  ring_inj : ∀ a b, 1 ≤ a → a ≤ L → 1 ≤ b → b ≤ L → a ≠ b → coords (g a) ≠ coords (g b)

theorem plainShape (o r hh : ℚ) (stamp c : ℕ) (hc : 1 ≤ c) (hh0 : 0 < hh) :
    RingShape o r hh stamp c c (2*c) (ringNodeVal r (r + hh) c o stamp) := by
  have hM : 2*c - c = c := by omega
  have hcq : (0:ℚ) < (c:ℚ) := by exact_mod_cast hc
  refine ⟨by omega, by omega, ?_, ?_, ?_, ?_, ?_⟩
  · intro idx h1 h2
    unfold ringNodeVal
    rw [if_pos h2]
  · intro idx h1 h2
    rw [hM] at h1
    unfold ringNodeVal
    rw [if_neg (by omega), hM]
    exact ⟨rfl, rfl, rfl⟩
  · intro idx h1 h2
    rw [hM] at h2
    omega
  · intro idx h1 h2
    unfold ringNodeVal
    by_cases hi : idx ≤ c
    · rw [if_pos hi]
      constructor
      · apply div_nonneg _ (le_of_lt hcq)
        have : (1:ℚ) ≤ (idx:ℚ) := by exact_mod_cast h1
        linarith
      · rw [div_lt_one hcq]
        have : (idx:ℚ) ≤ (c:ℚ) := by exact_mod_cast hi
        linarith
    · rw [if_neg hi]
      push_neg at hi
      constructor
      · apply div_nonneg _ (le_of_lt hcq)
        have : (c:ℚ) + 1 ≤ (idx:ℚ) := by exact_mod_cast hi
        linarith
      · rw [div_lt_one hcq]
        have : (idx:ℚ) ≤ 2*(c:ℚ) := by exact_mod_cast h2
        linarith
  · intro a b h1a h2a h1b h2b hab
    unfold ringNodeVal coords
    have hane : ((a:ℚ)) ≠ ((b:ℚ)) := by exact_mod_cast hab
    by_cases ha : a ≤ c <;> by_cases hb : b ≤ c
    · rw [if_pos ha, if_pos hb]
      simp only [ne_eq, Prod.mk.injEq, not_and]
      intro _ hturn
      intro _
      apply hab
      field_simp at hturn
      exact_mod_cast hturn
    · rw [if_pos ha, if_neg hb]
      simp only [ne_eq, Prod.mk.injEq, not_and]
      intro hrad
      exact absurd hrad (by linarith)
    · rw [if_neg ha, if_pos hb]
      simp only [ne_eq, Prod.mk.injEq, not_and]
      intro hrad
      exact absurd hrad (by linarith)
    · rw [if_neg ha, if_neg hb]
      simp only [ne_eq, Prod.mk.injEq, not_and]
      intro _ hturn
      intro _
      apply hab
      field_simp at hturn
      exact_mod_cast hturn

theorem transShape (o r hh : ℚ) (stamp c : ℕ) (hc : 1 ≤ c) (hh0 : 0 < hh) :
    RingShape o r hh stamp c (3*c) (6*c) (transNodeVal r (r + hh) c o stamp) := by
  have hM : 6*c - 3*c = 3*c := by omega
  have hcq : (0:ℚ) < (c:ℚ) := by exact_mod_cast hc
  have hmidrad : (r + (r + hh))/2 = r + hh/2 := by ring
  refine ⟨by omega, by omega, ?_, ?_, ?_, ?_, ?_⟩
  · intro idx h1 h2
    unfold transNodeVal
    rw [if_pos h2]
  · intro idx h1 h2
    rw [hM] at h1
    unfold transNodeVal
    rw [if_neg (by omega), if_neg (by omega), hM]
    refine ⟨rfl, ?_, rfl⟩
    push_cast
    ring_nf
  · intro idx h1 h2
    rw [hM] at h2
    unfold transNodeVal
    rw [if_neg (by omega), if_pos (by omega)]
    exact ⟨by linarith, by linarith, rfl⟩
  · intro idx h1 h2
    unfold transNodeVal
    by_cases hi : idx ≤ c
    · rw [if_pos hi]
      constructor
      · apply div_nonneg _ (le_of_lt hcq)
        have : (1:ℚ) ≤ (idx:ℚ) := by exact_mod_cast h1
        linarith
      · rw [div_lt_one hcq]
        have : (idx:ℚ) ≤ (c:ℚ) := by exact_mod_cast hi
        linarith
    · rw [if_neg hi]
      by_cases hm : idx ≤ 3*c
      · rw [if_pos hm]
        push_neg at hi
        rw [midTurn_eq c (idx - c) (by omega)]
        have hb := midIdx_bounds (idx - c) c (by omega) (by omega)
        have h3c : (0:ℚ) < 3*(c:ℚ) := by linarith
        constructor
        · apply div_nonneg _ (le_of_lt h3c)
          exact_mod_cast Nat.zero_le _
        · rw [div_lt_one h3c]
          have : (midIdx (idx - c) : ℚ) ≤ 3*(c:ℚ) - 1 := by
            have := hb.2
            have hcast : (midIdx (idx - c) : ℚ) ≤ ((3*c - 1 : ℕ) : ℚ) := by exact_mod_cast this
            have : ((3*c - 1 : ℕ) : ℚ) = 3*(c:ℚ) - 1 := by
              push_cast [Nat.cast_sub (by omega : 1 ≤ 3*c)]
              ring
            linarith
          linarith
      · rw [if_neg hm]
        push_neg at hm
        have h3c : (0:ℚ) < 3*(c:ℚ) := by linarith
        constructor
        · apply div_nonneg _ (le_of_lt h3c)
          have : 3*(c:ℚ) + 1 ≤ (idx:ℚ) := by exact_mod_cast hm
          linarith
        · rw [div_lt_one h3c]
          have : (idx:ℚ) ≤ 6*(c:ℚ) := by exact_mod_cast h2
          linarith
  · intro a b h1a h2a h1b h2b hab
    have hane : ((a:ℚ)) ≠ ((b:ℚ)) := by exact_mod_cast hab
    have hradmid : (r + (r + hh))/2 = r + hh/2 := by ring
    unfold transNodeVal coords
    by_cases ha : a ≤ c <;> by_cases hb : b ≤ c
    · rw [if_pos ha, if_pos hb]
      simp only [ne_eq, Prod.mk.injEq, not_and]
      intro _ hturn
      intro _
      apply hab
      field_simp at hturn
      exact_mod_cast hturn
    · rw [if_pos ha]
      by_cases hbm : b ≤ 3*c
      · rw [if_neg hb, if_pos hbm]
        simp only [ne_eq, Prod.mk.injEq, not_and, hradmid]
        intro hrad
        exact absurd hrad (by linarith)
      · rw [if_neg hb, if_neg hbm]
        simp only [ne_eq, Prod.mk.injEq, not_and]
        intro hrad
        exact absurd hrad (by linarith)
    · rw [if_pos hb]
      by_cases ham : a ≤ 3*c
      · rw [if_neg ha, if_pos ham]
        simp only [ne_eq, Prod.mk.injEq, not_and, hradmid]
        intro hrad
        exact absurd hrad (by linarith)
      · rw [if_neg ha, if_neg ham]
        simp only [ne_eq, Prod.mk.injEq, not_and]
        intro hrad
        exact absurd hrad (by linarith)
    · by_cases ham : a ≤ 3*c <;> by_cases hbm : b ≤ 3*c
      · rw [if_neg ha, if_pos ham, if_neg hb, if_pos hbm]
        simp only [ne_eq, Prod.mk.injEq, not_and]
        intro _ hturn
        intro _
        push_neg at ha hb
        rw [midTurn_eq c (a - c) (by omega), midTurn_eq c (b - c) (by omega)] at hturn
        field_simp at hturn
        apply hab
        rcases Nat.lt_trichotomy (a - c) (b - c) with hlt | heq | hlt
        · exact absurd hturn (Nat.ne_of_lt (midIdx_strict_mono _ _ (by omega) hlt))
        · omega
        · exact absurd hturn.symm (Nat.ne_of_lt (midIdx_strict_mono _ _ (by omega) hlt))
      · rw [if_neg ha, if_pos ham, if_neg hb, if_neg hbm]
        simp only [ne_eq, Prod.mk.injEq, not_and, hradmid]
        intro hrad
        exact absurd hrad (by linarith)
      · rw [if_neg ha, if_neg ham, if_neg hb, if_pos hbm]
        simp only [ne_eq, Prod.mk.injEq, not_and, hradmid]
        intro hrad
        exact absurd hrad (by linarith)
      · rw [if_neg ha, if_neg ham, if_neg hb, if_neg hbm]
        simp only [ne_eq, Prod.mk.injEq, not_and]
        intro _ hturn
        intro _
        apply hab
        field_simp at hturn
        exact_mod_cast hturn

theorem coords_ne_of_radius_ne {v v' : PNode} (h : v.radius ≠ v'.radius) :
    coords v ≠ coords v' :=
  fun hc => h (congrArg Prod.fst hc)

theorem rlookup_mem {β : Type} {k : ℕ} {l : List (ℕ × β)} {v : β}
    (h : rlookup k l = some v) : (k, v) ∈ l := by
  induction l with
  | nil => exact absurd h (by simp [rlookup])
  | cons e t ih =>
    by_cases he : e.1 = k
    · simp only [rlookup, if_pos he] at h
      subst he
      obtain rfl : e.2 = v := Option.some.inj h
      exact List.mem_cons_self e t
    · simp only [rlookup, if_neg he] at h
      exact List.mem_cons_of_mem e (ih h)

theorem rlookup_dictUpdate_cases {β : Type} {k : ℕ} {reg new : List (ℕ × β)} {v : β}
    (h : rlookup k (dictUpdate reg new) = some v) :
    (k, v) ∈ new ∨ rlookup k reg = some v := by
  induction new generalizing reg with
  | nil => exact Or.inr h
  | cons e t ih =>
    have step : dictUpdate reg (e :: t) = dictUpdate (dictInsert reg e) t := rfl
    rw [step] at h
    rcases ih h with hmem | hold
    · exact Or.inl (List.mem_cons_of_mem e hmem)
    · rw [rlookup_dictInsert] at hold
      by_cases he : e.1 = k
      · rw [if_pos he] at hold
        left
        have : e = (k, v) := by
          calc e = (e.1, e.2) := rfl
            _ = (k, v) := by rw [he, Option.some.inj hold]
        rw [← this]
        exact List.mem_cons_self e t
      · rw [if_neg he] at hold
        exact Or.inr hold

/-! ### The registry invariant of the radial sweep -/

/-- Invariant maintained by the radial sweep: registry keys stay below the
name cursor, no two distinct keys carry equal coordinates, every record lies
on or inside the current radius with a normalized turn, and the records at
the current radius are exactly the previous ring's outer boundary, laid out
as `turn = (name - nn)/c` — which is what makes the next ring's inner nodes
overwrite them with identical coordinates. -/
structure AInv (o rIn : ℚ) (st : ASt) : Prop where
  hr : rIn ≤ st.r
  keyLT : ∀ k v, rlookup k st.reg = some v → k < st.nn + st.c
  inj : RegInj st.reg
  radLe : ∀ k v, rlookup k st.reg = some v →
    v.radius ≤ st.r ∧ v.off = o ∧ 0 ≤ v.turn ∧ v.turn < 1 ∧ rIn ≤ v.radius
  bdry : ∀ k v, rlookup k st.reg = some v → v.radius = st.r →
    st.nn ≤ k ∧ v.turn = (((k - st.nn : ℕ)) : ℚ)/(st.c : ℚ)
  bdry2 : ∀ k v, rlookup k st.reg = some v → st.nn ≤ k → v.radius = st.r

/-- Every element corner name resolves in the registry. -/
def ElemsOK (els : List (ℕ × AElem)) (reg : List (ℕ × PNode)) : Prop :=
  ∀ q e, rlookup q els = some e →
    (rlookup e.ci.name reg).isSome ∧ (rlookup e.cj.name reg).isSome ∧
    (rlookup e.cm.name reg).isSome ∧ (rlookup e.cn.name reg).isSome

theorem AInv_init (o rIn s : ℚ) (n0 q0 : ℕ) : AInv o rIn (annulusInit rIn s n0 q0) := by
  constructor
  · exact le_refl _
  · intro k v h
    simp [annulusInit, rlookup] at h
  · intro k k' v v' h
    simp [annulusInit, rlookup] at h
  · intro k v h
    simp [annulusInit, rlookup] at h
  · intro k v h
    simp [annulusInit, rlookup] at h
  · intro k v h
    simp [annulusInit, rlookup] at h

/-- Merging one generated ring (of any `RingShape`) into the registry
preserves the invariant, rebased to the ring's outer edge. -/
theorem AInv_update (o rIn hh : ℚ) (st : ASt) (inv : AInv o rIn st)
    (hh0 : 0 < hh) (_hc : 1 ≤ st.c)
    (cOut L stamp : ℕ) (g : ℕ → PNode)
    (shape : RingShape o st.r hh stamp st.c cOut L g)
    (hcOut : 1 ≤ cOut)
    (qq' rings' : ℕ) (els' : List (ℕ × AElem)) :
    AInv o rIn ⟨st.r + hh, cOut, st.nn + (L - cOut), qq',
      dictUpdate st.reg (rangeMap st.nn (fun k => g (k+1)) L), els', rings'⟩ := by
  have hlook : ∀ k, rlookup k (dictUpdate st.reg (rangeMap st.nn (fun k => g (k+1)) L)) =
      if st.nn ≤ k ∧ k < st.nn + L then some (g (k - st.nn + 1)) else rlookup k st.reg := by
    intro k
    rw [rlookup_dictUpdate _ _ _ (rangeMap_keys_nodup _ _ _), rlookup_rangeMap]
    by_cases hin : st.nn ≤ k ∧ k < st.nn + L
    · rw [if_pos hin, if_pos hin]
    · rw [if_neg hin, if_neg hin]
  have hM := shape.c_le
  have hLsplit := shape.hL
  -- radius classification of the new ring's nodes
  have hrad_le : ∀ idx, 1 ≤ idx → idx ≤ L →
      st.r ≤ (g idx).radius ∧ (g idx).radius ≤ st.r + hh ∧ (g idx).off = o := by
    intro idx h1 h2
    by_cases hi : idx ≤ st.c
    · rw [shape.inner_val idx h1 hi]
      exact ⟨le_refl _, by linarith, rfl⟩
    · push_neg at hi
      by_cases hm : idx ≤ L - cOut
      · obtain ⟨ha, hb, hc2⟩ := shape.mid_rad idx hi hm
        exact ⟨le_of_lt ha, le_of_lt hb, hc2⟩
      · push_neg at hm
        obtain ⟨ha, _, hc2⟩ := shape.outer_val idx hm h2
        rw [ha]
        exact ⟨by linarith, le_refl _, hc2⟩
  have hrad_inner : ∀ idx, 1 ≤ idx → idx ≤ L → (g idx).radius = st.r → idx ≤ st.c := by
    intro idx h1 h2 hr
    by_contra hcon
    push_neg at hcon
    by_cases hm : idx ≤ L - cOut
    · exact absurd hr (ne_of_gt (shape.mid_rad idx hcon hm).1)
    · push_neg at hm
      rw [(shape.outer_val idx hm h2).1] at hr
      linarith
  have hrad_outer : ∀ idx, 1 ≤ idx → idx ≤ L → (g idx).radius = st.r + hh → L - cOut < idx := by
    intro idx h1 h2 hr
    by_contra hcon
    push_neg at hcon
    by_cases hi : idx ≤ st.c
    · rw [shape.inner_val idx h1 hi] at hr
      simp only [] at hr
      linarith
    · push_neg at hi
      exact absurd hr (ne_of_lt (shape.mid_rad idx hi hcon).2.1)
  refine ⟨by have := inv.hr; simp only []; linarith, ?_, ?_, ?_, ?_, ?_⟩
  · -- keyLT
    intro k v h
    simp only [] at h ⊢
    rw [hlook k] at h
    by_cases hin : st.nn ≤ k ∧ k < st.nn + L
    · omega
    · rw [if_neg hin] at h
      have := inv.keyLT k v h
      omega
  · -- injectivity
    intro k k' v v' h h' hne
    simp only [] at h h'
    rw [hlook k] at h
    rw [hlook k'] at h'
    by_cases hin : st.nn ≤ k ∧ k < st.nn + L <;> by_cases hin' : st.nn ≤ k' ∧ k' < st.nn + L
    · rw [if_pos hin] at h
      rw [if_pos hin'] at h'
      rw [← Option.some.inj h, ← Option.some.inj h']
      exact shape.ring_inj _ _ (by omega) (by omega) (by omega) (by omega) (by omega)
    · rw [if_pos hin] at h
      rw [if_neg hin'] at h'
      have hk' : k' < st.nn := by
        have := inv.keyLT k' v' h'
        omega
      rw [← Option.some.inj h]
      set idx := k - st.nn + 1 with hidx
      have hrle := (inv.radLe k' v' h').1
      by_cases hi : idx ≤ st.c
      · intro hco
        have hrv : (g idx).radius = st.r := by
          rw [shape.inner_val idx (by omega) hi]
        have : v'.radius = st.r := by
          have := congrArg Prod.fst hco
          simp only [coords] at this
          rw [← this, hrv]
        exact absurd (inv.bdry k' v' h' this).1 (by omega)
      · apply coords_ne_of_radius_ne
        push_neg at hi
        have : st.r < (g idx).radius := by
          by_cases hm : idx ≤ L - cOut
          · exact (shape.mid_rad idx hi hm).1
          · push_neg at hm
            rw [(shape.outer_val idx hm (by omega)).1]
            linarith
        exact ne_of_gt (by linarith)
    · rw [if_neg hin] at h
      rw [if_pos hin'] at h'
      have hk : k < st.nn := by
        have := inv.keyLT k v h
        omega
      rw [← Option.some.inj h']
      set idx := k' - st.nn + 1 with hidx
      have hrle := (inv.radLe k v h).1
      by_cases hi : idx ≤ st.c
      · intro hco
        have hrv : (g idx).radius = st.r := by
          rw [shape.inner_val idx (by omega) hi]
        have : v.radius = st.r := by
          have := congrArg Prod.fst hco
          simp only [coords] at this
          rw [this, hrv]
        exact absurd (inv.bdry k v h this).1 (by omega)
      · intro hco
        push_neg at hi
        have : st.r < (g idx).radius := by
          by_cases hm : idx ≤ L - cOut
          · exact (shape.mid_rad idx hi hm).1
          · push_neg at hm
            rw [(shape.outer_val idx hm (by omega)).1]
            linarith
        have := congrArg Prod.fst hco
        simp only [coords] at this
        rw [this] at hrle
        linarith
    · rw [if_neg hin] at h
      rw [if_neg hin'] at h'
      exact inv.inj k k' v v' h h' hne
  · -- radLe
    intro k v h
    simp only [] at h ⊢
    rw [hlook k] at h
    by_cases hin : st.nn ≤ k ∧ k < st.nn + L
    · rw [if_pos hin] at h
      rw [← Option.some.inj h]
      set idx := k - st.nn + 1 with hidx
      obtain ⟨ha, hb, hc2⟩ := hrad_le idx (by omega) (by omega)
      obtain ⟨ht0, ht1⟩ := shape.turn_bounds idx (by omega) (by omega)
      have := inv.hr
      exact ⟨hb, hc2, ht0, ht1, by linarith⟩
    · rw [if_neg hin] at h
      obtain ⟨ha, hb, hc2, hd, he⟩ := inv.radLe k v h
      exact ⟨by linarith, hb, hc2, hd, he⟩
  · -- bdry
    intro k v h hrad
    simp only [] at h hrad ⊢
    rw [hlook k] at h
    by_cases hin : st.nn ≤ k ∧ k < st.nn + L
    · rw [if_pos hin] at h
      set idx := k - st.nn + 1 with hidx
      have hv : v = g idx := (Option.some.inj h).symm
      have hout : L - cOut < idx := hrad_outer idx (by omega) (by omega) (by rw [← hv]; exact hrad)
      constructor
      · omega
      · obtain ⟨_, hturn, _⟩ := shape.outer_val idx hout (by omega)
        rw [hv, hturn]
        have hksub : k - (st.nn + (L - cOut)) = idx - (L - cOut) - 1 := by omega
        rw [hksub]
        have hcast : ((idx - (L - cOut) - 1 : ℕ) : ℚ) = (idx:ℚ) - ((L - cOut : ℕ):ℚ) - 1 := by
          have h1 : L - cOut + 1 ≤ idx := by omega
          have h2 : (idx - (L - cOut) - 1 : ℕ) = idx - ((L - cOut) + 1) := by omega
          rw [h2, Nat.cast_sub h1]
          push_cast
          ring
        rw [hcast]
    · rw [if_neg hin] at h
      have := (inv.radLe k v h).1
      rw [hrad] at this
      linarith
  · -- bdry2
    intro k v h hk
    simp only [] at h hk ⊢
    rw [hlook k] at h
    by_cases hin : st.nn ≤ k ∧ k < st.nn + L
    · rw [if_pos hin] at h
      set idx := k - st.nn + 1 with hidx
      have hv : v = g idx := (Option.some.inj h).symm
      have hout : L - cOut < idx := by omega
      rw [hv]
      exact (shape.outer_val idx hout (by omega)).1
    · rw [if_neg hin] at h
      have := inv.keyLT k v h
      omega

/-- One sweep iteration preserves the registry invariant and keeps every
element corner resolvable. -/
theorem AInv_step (s rOut o rIn : ℚ) (st st' : ASt)
    (hcond : round10 st.r < round10 rOut)
    (hstep : annulusStep s rOut o st = some st')
    (inv : AInv o rIn st) (eok : ElemsOK st.els st.reg) :
    AInv o rIn st' ∧ ElemsOK st'.els st'.reg := by
  have hradial : 0 < rOut - st.r := by
    have := lt_of_round10_lt hcond
    linarith
  unfold annulusStep at hstep
  by_cases hc : st.c = 0
  · rw [if_pos hc] at hstep
    simp at hstep
  rw [if_neg hc] at hstep
  by_cases hnr : annulusNrad s rOut st = 0
  · rw [if_pos hnr] at hstep
    simp at hstep
  rw [if_neg hnr] at hstep
  have hh0 : 0 < annulusH s rOut st := by
    unfold annulusH
    apply div_pos hradial
    exact_mod_cast Nat.pos_of_ne_zero hnr
  have hc1 : 1 ≤ st.c := Nat.pos_of_ne_zero hc
  by_cases htr : 3*s < annulusB st
  · rw [if_pos htr] at hstep
    rcases hes : transRingElems
        (transRingNodes st.r (st.r + annulusH s rOut st) st.c o st.rings st.nn)
        st.c st.nn st.qq with _ | es <;> rw [hes] at hstep
    · simp at hstep
    · obtain rfl := (Option.some.inj hstep).symm
      have shape := transShape o st.r (annulusH s rOut st) st.rings st.c hc1 hh0
      have hA := AInv_update o rIn (annulusH s rOut st) st inv hh0 hc1
        (3*st.c) (6*st.c) st.rings
        (transNodeVal st.r (st.r + annulusH s rOut st) st.c o st.rings)
        shape (by omega) (st.qq + 4*st.c) (st.rings + 1) (dictUpdate st.els es)
      have hsub : 6*st.c - 3*st.c = 3*st.c := by omega
      rw [hsub] at hA
      refine ⟨hA, ?_⟩
      intro q e hqe
      simp only [] at hqe
      have hinrange : ∀ m, st.nn ≤ m → m < st.nn + 6*st.c →
          (rlookup m (dictUpdate st.reg
            (transRingNodes st.r (st.r + annulusH s rOut st) st.c o st.rings st.nn))).isSome := by
        intro m hm1 hm2
        unfold transRingNodes
        rw [rlookup_dictUpdate _ _ _ (rangeMap_keys_nodup _ _ _), rlookup_rangeMap,
          if_pos ⟨hm1, hm2⟩]
        simp
      rcases rlookup_dictUpdate_cases hqe with hmem | hold
      · obtain ⟨k, hkr, hgk⟩ := omap_mem _ _ _ hes (q, e) hmem
        have hk4 : k < 4*st.c := List.mem_range.mp hkr
        rw [transElemAt_eq st.r (st.r + annulusH s rOut st) o st.c st.rings st.nn st.qq
          (k+1) hc1 (by omega) (by omega)] at hgk
        have he : e = _ := (congrArg Prod.snd (Option.some.inj hgk)).symm
        have hr := transRefs_range st.c (k+1) hc1 (by omega) (by omega)
        rw [he]
        dsimp only
        refine ⟨?_, ?_, ?_, ?_⟩ <;>
          exact hinrange _ (by omega) (by omega)
      · obtain ⟨h1, h2, h3, h4⟩ := eok q e hold
        unfold transRingNodes
        exact ⟨rlookup_dictUpdate_isSome _ _ _ (rangeMap_keys_nodup _ _ _) h1,
          rlookup_dictUpdate_isSome _ _ _ (rangeMap_keys_nodup _ _ _) h2,
          rlookup_dictUpdate_isSome _ _ _ (rangeMap_keys_nodup _ _ _) h3,
          rlookup_dictUpdate_isSome _ _ _ (rangeMap_keys_nodup _ _ _) h4⟩
  · rw [if_neg htr] at hstep
    rcases hes : plainRingElems
        (plainRingNodes st.r (st.r + annulusH s rOut st) st.c o st.rings st.nn)
        st.c st.nn st.qq with _ | es <;> rw [hes] at hstep
    · simp at hstep
    · obtain rfl := (Option.some.inj hstep).symm
      have shape := plainShape o st.r (annulusH s rOut st) st.rings st.c hc1 hh0
      have hA := AInv_update o rIn (annulusH s rOut st) st inv hh0 hc1
        st.c (2*st.c) st.rings
        (ringNodeVal st.r (st.r + annulusH s rOut st) st.c o st.rings)
        shape hc1 (st.qq + st.c) (st.rings + 1) (dictUpdate st.els es)
      have hsub : 2*st.c - st.c = st.c := by omega
      rw [hsub] at hA
      refine ⟨hA, ?_⟩
      intro q e hqe
      simp only [] at hqe
      have hinrange : ∀ m, st.nn ≤ m → m < st.nn + 2*st.c →
          (rlookup m (dictUpdate st.reg
            (plainRingNodes st.r (st.r + annulusH s rOut st) st.c o st.rings st.nn))).isSome := by
        intro m hm1 hm2
        unfold plainRingNodes
        rw [rlookup_dictUpdate _ _ _ (rangeMap_keys_nodup _ _ _), rlookup_rangeMap,
          if_pos ⟨hm1, hm2⟩]
        simp
      rcases rlookup_dictUpdate_cases hqe with hmem | hold
      · obtain ⟨k, hkr, hgk⟩ := omap_mem _ _ _ hes (q, e) hmem
        have hk4 : k < st.c := List.mem_range.mp hkr
        rw [ringElemAt_eq st.r (st.r + annulusH s rOut st) o st.c st.rings st.nn st.qq
          (k+1) hc1 (by omega) (by omega)] at hgk
        have he : e = _ := (congrArg Prod.snd (Option.some.inj hgk)).symm
        have hr := ringRefs_range st.c (k+1) hc1 (by omega) (by omega)
        rw [he]
        dsimp only
        refine ⟨?_, ?_, ?_, ?_⟩ <;>
          exact hinrange _ (by omega) (by omega)
      · obtain ⟨h1, h2, h3, h4⟩ := eok q e hold
        unfold plainRingNodes
        exact ⟨rlookup_dictUpdate_isSome _ _ _ (rangeMap_keys_nodup _ _ _) h1,
          rlookup_dictUpdate_isSome _ _ _ (rangeMap_keys_nodup _ _ _) h2,
          rlookup_dictUpdate_isSome _ _ _ (rangeMap_keys_nodup _ _ _) h3,
          rlookup_dictUpdate_isSome _ _ _ (rangeMap_keys_nodup _ _ _) h4⟩

theorem AInv_loop (s rOut o rIn : ℚ) : ∀ (fuel : ℕ) (st st' : ASt),
    annulusLoop s rOut o fuel st = some st' →
    AInv o rIn st → ElemsOK st.els st.reg →
    AInv o rIn st' ∧ ElemsOK st'.els st'.reg := by
  intro fuel
  induction fuel with
  | zero =>
    intro st st' h inv eok
    unfold annulusLoop at h
    by_cases hcond : round10 st.r < round10 rOut
    · rw [if_pos hcond] at h
      simp at h
    · rw [if_neg hcond] at h
      obtain rfl := Option.some.inj h
      exact ⟨inv, eok⟩
  | succ f ih =>
    intro st st' h inv eok
    unfold annulusLoop at h
    by_cases hcond : round10 st.r < round10 rOut
    · rw [if_pos hcond] at h
      rcases hstep : annulusStep s rOut o st with _ | stm <;> rw [hstep] at h
      · simp at h
      · simp only [Option.some_bind] at h
        obtain ⟨inv', eok'⟩ := AInv_step s rOut o rIn st stm hcond hstep inv eok
        exact ih stm st' h inv' eok'
    · rw [if_neg hcond] at h
      obtain rfl := Option.some.inj h
      exact ⟨inv, eok⟩

/-! ### Real Cartesian view of revolved nodes -/

/-- Revolution axis token (`'X'`, `'Y'` or `'Z'` in the source). -/
inductive Axis
  | X
  | Y
  | Z
deriving DecidableEq, Repr

/-- Cartesian coordinates of a polar node record, exactly as the source
computes them per axis (`axis == 'Y'`: `x = Xo + r*cos(angle)`, `y` on the
axis, `z = Zo + r*sin(angle)`, and so on), with `angle = 2π * turn`. -/
noncomputable def toCart (axis : Axis) (ox oy oz : ℚ) (p : PNode) : ℝ × ℝ × ℝ :=
  match axis with
  | Axis.Y => ((ox:ℝ) + (p.radius:ℝ) * Real.cos (2*Real.pi*(p.turn:ℝ)),
               (p.off:ℝ),
               (oz:ℝ) + (p.radius:ℝ) * Real.sin (2*Real.pi*(p.turn:ℝ)))
  | Axis.X => ((p.off:ℝ),
               (oy:ℝ) + (p.radius:ℝ) * Real.sin (2*Real.pi*(p.turn:ℝ)),
               (oz:ℝ) + (p.radius:ℝ) * Real.cos (2*Real.pi*(p.turn:ℝ)))
  | Axis.Z => ((ox:ℝ) + (p.radius:ℝ) * Real.sin (2*Real.pi*(p.turn:ℝ)),
               (oy:ℝ) + (p.radius:ℝ) * Real.cos (2*Real.pi*(p.turn:ℝ)),
               (p.off:ℝ))

theorem cossin_inj {a b : ℝ} (ha0 : 0 ≤ a) (ha1 : a < 1) (hb0 : 0 ≤ b) (hb1 : b < 1)
    (hc : Real.cos (2*Real.pi*a) = Real.cos (2*Real.pi*b))
    (hs : Real.sin (2*Real.pi*a) = Real.sin (2*Real.pi*b)) : a = b := by
  have he : Complex.exp ((2*Real.pi*a : ℝ) * Complex.I)
      = Complex.exp ((2*Real.pi*b : ℝ) * Complex.I) := by
    rw [Complex.exp_mul_I, Complex.exp_mul_I, ← Complex.ofReal_cos, ← Complex.ofReal_cos,
      ← Complex.ofReal_sin, ← Complex.ofReal_sin, hc, hs]
  obtain ⟨n, hn⟩ := Complex.exp_eq_exp_iff_exists_int.mp he
  have hI : ((2*Real.pi*a : ℝ) : ℂ) = ((2*Real.pi*b : ℝ) : ℂ) + (n:ℂ) * (2*(Real.pi:ℝ)) := by
    have h2 : ((2*Real.pi*a : ℝ) : ℂ) * Complex.I
        = (((2*Real.pi*b : ℝ) : ℂ) + (n:ℂ) * (2*(Real.pi:ℝ))) * Complex.I := by
      rw [hn]
      push_cast
      ring
    exact mul_right_cancel₀ Complex.I_ne_zero h2
  have hreal : (2*Real.pi*a : ℝ) = (2*Real.pi*b : ℝ) + (n:ℝ) * (2*Real.pi) := by
    exact_mod_cast hI
  have hab : a = b + (n:ℝ) := by
    have hpi : (0:ℝ) < Real.pi := Real.pi_pos
    have : 2*Real.pi*(a - b - (n:ℝ)) = 0 := by linarith
    have h2 : a - b - (n:ℝ) = 0 := by
      rcases mul_eq_zero.mp this with h | h
      · nlinarith
      · exact h
    linarith
  have hn0 : n = 0 := by
    have h1 : (n:ℝ) < 1 := by linarith
    have h2 : (-1:ℝ) < (n:ℝ) := by linarith
    exact_mod_cast (by
      constructor <;> [exact_mod_cast h2; exact_mod_cast h1] :
      (-1:ℤ) < n ∧ n < 1) |>.elim (fun ha hb => by omega)
  rw [hn0] at hab
  simpa using hab

theorem radius_eq_of_sq {x y : ℝ} (hx : 0 < x) (hy : 0 < y) (h : x^2 = y^2) : x = y := by
  nlinarith [sq_nonneg (x - y), sq_nonneg (x + y)]

/-- A point of the plane written in polar form with positive radius and a
turn in `[0,1)` determines radius and turn. -/
theorem polar_pair_inj {rp rq tp tq : ℝ} (hrp : 0 < rp) (hrq : 0 < rq)
    (htp0 : 0 ≤ tp) (htp1 : tp < 1) (htq0 : 0 ≤ tq) (htq1 : tq < 1)
    (hc : rp * Real.cos (2*Real.pi*tp) = rq * Real.cos (2*Real.pi*tq))
    (hs : rp * Real.sin (2*Real.pi*tp) = rq * Real.sin (2*Real.pi*tq)) :
    rp = rq ∧ tp = tq := by
  have hidp := Real.sin_sq_add_cos_sq (2*Real.pi*tp)
  have hidq := Real.sin_sq_add_cos_sq (2*Real.pi*tq)
  have a1 := congrArg (fun x => x^2) hc
  have a2 := congrArg (fun x => x^2) hs
  simp only [mul_pow] at a1 a2
  have hsq : rp^2 = rq^2 := by
    calc rp^2 = rp^2 * (Real.sin (2*Real.pi*tp)^2 + Real.cos (2*Real.pi*tp)^2) := by
          rw [hidp]; ring
      _ = rp^2 * Real.cos (2*Real.pi*tp)^2 + rp^2 * Real.sin (2*Real.pi*tp)^2 := by ring
      _ = rq^2 * Real.cos (2*Real.pi*tq)^2 + rq^2 * Real.sin (2*Real.pi*tq)^2 := by
          rw [a1, a2]
      _ = rq^2 * (Real.sin (2*Real.pi*tq)^2 + Real.cos (2*Real.pi*tq)^2) := by ring
      _ = rq^2 := by rw [hidq]; ring
  have hr : rp = rq := radius_eq_of_sq hrp hrq hsq
  refine ⟨hr, ?_⟩
  rw [hr] at hc hs
  have hcos := mul_left_cancel₀ (ne_of_gt hrq) hc
  have hsin := mul_left_cancel₀ (ne_of_gt hrq) hs
  exact cossin_inj htp0 htp1 htq0 htq1 hcos hsin

/-- Distinct polar records (positive radius, normalized turns, common axis
offset when their planar parts agree) occupy distinct Cartesian points, for
every axis and origin: the polar coordinate view is lossless. -/
theorem toCart_inj (axis : Axis) (ox oy oz : ℚ) (p q : PNode)
    (hp : 0 < p.radius) (hq : 0 < q.radius)
    (hpt0 : 0 ≤ p.turn) (hpt1 : p.turn < 1) (hqt0 : 0 ≤ q.turn) (hqt1 : q.turn < 1)
    (hco : coords p ≠ coords q) :
    toCart axis ox oy oz p ≠ toCart axis ox oy oz q := by
  intro heq
  apply hco
  have hpr : (0:ℝ) < (p.radius:ℝ) := by exact_mod_cast hp
  have hqr : (0:ℝ) < (q.radius:ℝ) := by exact_mod_cast hq
  have hpt0' : (0:ℝ) ≤ (p.turn:ℝ) := by exact_mod_cast hpt0
  have hpt1' : ((p.turn:ℝ)) < 1 := by exact_mod_cast hpt1
  have hqt0' : (0:ℝ) ≤ (q.turn:ℝ) := by exact_mod_cast hqt0
  have hqt1' : ((q.turn:ℝ)) < 1 := by exact_mod_cast hqt1
  have main : ((p.radius:ℝ) * Real.cos (2*Real.pi*(p.turn:ℝ))
        = (q.radius:ℝ) * Real.cos (2*Real.pi*(q.turn:ℝ))
      ∧ (p.radius:ℝ) * Real.sin (2*Real.pi*(p.turn:ℝ))
        = (q.radius:ℝ) * Real.sin (2*Real.pi*(q.turn:ℝ)))
      ∧ ((p.off:ℝ)) = ((q.off:ℝ)) := by
    cases axis
    · simp only [toCart] at heq
      rw [Prod.ext_iff, Prod.ext_iff] at heq
      obtain ⟨h1, h2, h3⟩ := heq
      dsimp only at h1 h2 h3
      exact ⟨⟨by linarith, by linarith⟩, h1⟩
    · simp only [toCart] at heq
      rw [Prod.ext_iff, Prod.ext_iff] at heq
      obtain ⟨h1, h2, h3⟩ := heq
      dsimp only at h1 h2 h3
      exact ⟨⟨by linarith, by linarith⟩, h2⟩
    · simp only [toCart] at heq
      rw [Prod.ext_iff, Prod.ext_iff] at heq
      obtain ⟨h1, h2, h3⟩ := heq
      dsimp only at h1 h2 h3
      exact ⟨⟨by linarith, by linarith⟩, h3⟩
  obtain ⟨⟨hcos, hsin⟩, hoffR⟩ := main
  obtain ⟨hr, ht⟩ := polar_pair_inj hpr hqr hpt0' hpt1' hqt0' hqt1' hcos hsin
  have hr' : p.radius = q.radius := by exact_mod_cast hr
  have ht' : p.turn = q.turn := by exact_mod_cast ht
  have hoff' : p.off = q.off := by exact_mod_cast hoffR
  unfold coords
  rw [hr', ht', hoff']

/-- Conclusion of claim C2 for a given generation configuration: in the
merged mesh no two distinct node records coincide — neither in the exact
polar coordinates nor as Cartesian points for any axis and origin — and
every element's four node references are exactly the registry's records for
their names. -/
def C2Prop (fuel : ℕ) (s rIn rOut o : ℚ) (n0 q0 : ℕ) : Prop :=
  ∀ mesh, annulusGen fuel s rIn rOut o n0 q0 = some mesh →
    (∀ k k' v v', rlookup k mesh.reg = some v → rlookup k' mesh.reg = some v' → k ≠ k' →
        coords v ≠ coords v'
        ∧ ∀ axis ox oy oz, toCart axis ox oy oz v ≠ toCart axis ox oy oz v')
    ∧ (∀ k v, rlookup k mesh.reg = some v →
        0 < v.radius ∧ 0 ≤ v.turn ∧ v.turn < 1 ∧ v.off = o)
    ∧ (∀ q e, rlookup q mesh.els = some e →
        rlookup e.ci.name mesh.reg = some e.ci.nd ∧
        rlookup e.cj.name mesh.reg = some e.cj.nd ∧
        rlookup e.cm.name mesh.reg = some e.cm.nd ∧
        rlookup e.cn.name mesh.reg = some e.cn.nd)

/-- C2: for every annulus generation (positive inner radius) whose radial
sweep stacks at least two rings, after the merge no two distinct node
records in the registry have equal coordinates — the `dict.update` overwrite
at ring boundaries deduplicates them — and, after the repair pass, every
element's four node references are exactly the registry's records for their
names.  (In this exact-arithmetic embedding, coordinate equality within the
source's `1e-9` float tolerance is exact equality of the polar data, and the
Cartesian conjunct shows the polar view loses nothing.) -/
theorem C2_merge_dedup (fuel : ℕ) (s rIn rOut o : ℚ) (n0 q0 : ℕ)
    (hrIn : 0 < rIn)
    (_hgen : (annulusGen fuel s rIn rOut o n0 q0).isSome)
    (_hrings : 2 ≤ ((annulusGen fuel s rIn rOut o n0 q0).map (fun m => m.rings)).getD 0) :
    C2Prop fuel s rIn rOut o n0 q0 := by
  intro mesh hmesh
  unfold annulusGen at hmesh
  obtain ⟨stf, hloop, hmesh2⟩ := Option.bind_eq_some.mp hmesh
  obtain ⟨es, homap, hmesh3⟩ := Option.map_eq_some'.mp hmesh2
  obtain rfl := hmesh3.symm
  obtain ⟨inv, _⟩ := AInv_loop s rOut o rIn fuel _ stf hloop (AInv_init o rIn s n0 q0)
    (by intro q e h; simp [annulusInit, rlookup] at h)
  refine ⟨?_, ?_, ?_⟩
  · intro k k' v v' h h' hne
    have hcne := inv.inj k k' v v' h h' hne
    have hb := inv.radLe k v h
    have hb' := inv.radLe k' v' h'
    refine ⟨hcne, fun axis ox oy oz => ?_⟩
    exact toCart_inj axis ox oy oz v v'
      (by linarith [hb.2.2.2.2]) (by linarith [hb'.2.2.2.2])
      hb.2.2.1 hb.2.2.2.1 hb'.2.2.1 hb'.2.2.2.1 hcne
  · intro k v h
    have hb := inv.radLe k v h
    exact ⟨by linarith [hb.2.2.2.2], hb.2.2.1, hb.2.2.2.1, hb.2.1⟩
  · intro q e hqe
    have hmem := rlookup_mem hqe
    obtain ⟨p, hpmem, hpg⟩ := omap_mem _ _ _ homap (q, e) hmem
    rcases hrp : repointElem stf.reg p.2 with _ | e2 <;> rw [hrp] at hpg
    · simp at hpg
    have hpg2 : some (p.1, e2) = some (q, e) := hpg
    have hpg3 : (p.1, e2) = (q, e) := Option.some.inj hpg2
    obtain ⟨rfl, rfl⟩ : p.1 = q ∧ e2 = e :=
      ⟨congrArg Prod.fst hpg3, congrArg Prod.snd hpg3⟩
    unfold repointElem at hrp
    rcases h1 : rlookup p.2.ci.name stf.reg with _ | a <;> rw [h1] at hrp
    · simp at hrp
    rcases h2 : rlookup p.2.cj.name stf.reg with _ | b <;> rw [h2] at hrp
    · simp at hrp
    rcases h3 : rlookup p.2.cm.name stf.reg with _ | m <;> rw [h3] at hrp
    · simp at hrp
    rcases h4 : rlookup p.2.cn.name stf.reg with _ | nn <;> rw [h4] at hrp
    · simp at hrp
    obtain rfl := (Option.some.inj hrp).symm
    exact ⟨h1, h2, h3, h4⟩

/-- C2 witness: mesh size 1 between radii 1 and 3 stacks exactly two plain
rings of six sectors. -/
theorem C2_witness :
    (0:ℚ) < 1 ∧ (annulusGen 8 1 1 3 0 1 1).isSome = true
    ∧ 2 ≤ ((annulusGen 8 1 1 3 0 1 1).map (fun m => m.rings)).getD 0
    ∧ C2Prop 8 1 1 3 0 1 1 :=
  ⟨by norm_num, by with_unfolding_all decide, by with_unfolding_all decide,
   C2_merge_dedup 8 1 1 3 0 1 1 (by norm_num) (by with_unfolding_all decide)
     (by with_unfolding_all decide)⟩

/-! ### The axial sweep of `CylinderMesh._generate` -/

/-- Node `i` (1-based) of `CylinderRingMesh._generate`: nodes `1..n` at the
base of the ring (axis offset `yo`), nodes `n+1..2n` at its top
(`yo + height`), all at the fixed `radius`, angles `theta*(i-1)` and
`theta*((i-n)-1)`. -/
def cylRingNodeVal (radius hgt : ℚ) (c : ℕ) (yo : ℚ) (stamp i : ℕ) : PNode :=
  if i ≤ c then ⟨radius, ((i:ℚ) - 1)/(c:ℚ), yo, stamp⟩
  else ⟨radius, ((i:ℚ) - (c:ℚ) - 1)/(c:ℚ), yo + hgt, stamp⟩

def cylRingNodes (radius hgt : ℚ) (c : ℕ) (yo : ℚ) (stamp startN : ℕ) : List (ℕ × PNode) :=
  rangeMap startN (fun k => cylRingNodeVal radius hgt c yo stamp (k+1)) (2*c)

/-- Loop state of the axial sweep (`y` is the current height). -/
structure CSt where
  y : ℚ
  nn : ℕ
  qq : ℕ
  reg : List (ℕ × PNode)
  els : List (ℕ × AElem)
  rings : ℕ
deriving DecidableEq, Repr

/-- Vertical division count `n_vert = int(height/mesh_size)` of the
remaining height. -/
def cylNvert (s h : ℚ) (st : CSt) : ℕ := (pyint ((h - st.y)/s)).toNat

/-- Step height `h_y = height/n_vert`. -/
def cylH (s h : ℚ) (st : CSt) : ℚ := (h - st.y)/((cylNvert s h st : ℚ))

/-- One iteration of the axial sweep loop body: exactly one plain ring of the
fixed sector count `c` (the cylinder generator has no transition variant);
`none` models the `ZeroDivisionError` when `n_vert = 0`.  The element-type
branch (`Quad3D` vs `Plate3D`) only selects the external element class and is
not modelled. -/
def cylinderStep (s h radius : ℚ) (c : ℕ) (st : CSt) : Option CSt :=
  if cylNvert s h st = 0 then none else
  match plainRingElems (cylRingNodes radius (cylH s h st) c st.y st.rings st.nn)
      c st.nn st.qq with
  | none => none
  | some es => some ⟨st.y + cylH s h st, st.nn + c, st.qq + c,
      dictUpdate st.reg (cylRingNodes radius (cylH s h st) c st.y st.rings st.nn),
      dictUpdate st.els es, st.rings + 1⟩

/-- The sweep loop `while round(y, 10) < round(h, 10)`. -/
def cylinderLoop (s h radius : ℚ) (c : ℕ) : ℕ → CSt → Option CSt
  | 0, st => if round10 st.y < round10 h then none else some st
  | f+1, st =>
    if round10 st.y < round10 h then (cylinderStep s h radius c st).bind (cylinderLoop s h radius c f)
    else some st

/-- Default circumferential count `int(round(2*pi*radius/mesh_size, 0))`
when `num_elements` is omitted. -/
def cylinderInitCount (radius s : ℚ) : ℕ := (rhe (2*mpi*radius/s)).toNat

/-- Full embedding of `CylinderMesh._generate` (with the repair pass). -/
def cylinderGen (fuel : ℕ) (s radius h y0 : ℚ) (c n0 q0 : ℕ) : Option AMesh :=
  (cylinderLoop s h radius c fuel ⟨y0, n0, q0, [], [], 0⟩).bind fun st =>
  (omap (fun p : ℕ × AElem => (repointElem st.reg p.2).map (fun e => (p.1, e))) st.els).map
    fun es => ⟨st.reg, es, st.rings, c⟩

/-- Boundary invariant of the axial sweep: the registry entries at or above
the name cursor are exactly the previous ring's top circle — same radius,
turn `(name - nn)/c`, axis offset equal to the current height. -/
structure CInv (radius : ℚ) (c : ℕ) (st : CSt) : Prop where
  keyLT : ∀ k v, rlookup k st.reg = some v → k < st.nn + c
  bdry : ∀ k v, rlookup k st.reg = some v → st.nn ≤ k →
    coords v = (radius, (((k - st.nn : ℕ)):ℚ)/(c:ℚ), st.y)

theorem CInv_init (radius y0 : ℚ) (c n0 q0 : ℕ) :
    CInv radius c ⟨y0, n0, q0, [], [], 0⟩ := by
  constructor <;> intro k v h <;> simp [rlookup] at h

theorem CInv_step (s h radius : ℚ) (c : ℕ) (st st' : CSt)
    (hstep : cylinderStep s h radius c st = some st')
    (inv : CInv radius c st) : CInv radius c st' := by
  unfold cylinderStep at hstep
  by_cases hn : cylNvert s h st = 0
  · rw [if_pos hn] at hstep
    simp at hstep
  rw [if_neg hn] at hstep
  rcases hes : plainRingElems (cylRingNodes radius (cylH s h st) c st.y st.rings st.nn)
      c st.nn st.qq with _ | es <;> rw [hes] at hstep
  · simp at hstep
  obtain rfl := (Option.some.inj hstep).symm
  have hlook : ∀ k, rlookup k (dictUpdate st.reg
      (cylRingNodes radius (cylH s h st) c st.y st.rings st.nn)) =
      if st.nn ≤ k ∧ k < st.nn + 2*c then
        some (cylRingNodeVal radius (cylH s h st) c st.y st.rings (k - st.nn + 1))
      else rlookup k st.reg := by
    intro k
    unfold cylRingNodes
    rw [rlookup_dictUpdate _ _ _ (rangeMap_keys_nodup _ _ _), rlookup_rangeMap]
    by_cases hin : st.nn ≤ k ∧ k < st.nn + 2*c
    · rw [if_pos hin, if_pos hin]
    · rw [if_neg hin, if_neg hin]
  constructor
  · intro k v hk
    simp only [] at hk ⊢
    rw [hlook k] at hk
    by_cases hin : st.nn ≤ k ∧ k < st.nn + 2*c
    · omega
    · rw [if_neg hin] at hk
      have := inv.keyLT k v hk
      omega
  · intro k v hk hge
    simp only [] at hk hge ⊢
    rw [hlook k] at hk
    by_cases hin : st.nn ≤ k ∧ k < st.nn + 2*c
    · rw [if_pos hin] at hk
      obtain rfl := (Option.some.inj hk).symm
      set idx := k - st.nn + 1 with hidx
      have htop : ¬ idx ≤ c := by omega
      unfold cylRingNodeVal coords
      rw [if_neg htop]
      have hsub : k - (st.nn + c) = idx - c - 1 := by omega
      rw [hsub]
      have hcast : ((idx - c - 1 : ℕ) : ℚ) = (idx:ℚ) - (c:ℚ) - 1 := by
        have h2 : (idx - c - 1 : ℕ) = idx - (c + 1) := by omega
        rw [h2, Nat.cast_sub (by omega)]
        push_cast
        ring
      rw [hcast]
    · rw [if_neg hin] at hk
      have := inv.keyLT k v hk
      omega

/-- Conclusion of claim C8 for one step of the axial sweep: the remaining
height is divided into `n_vert = int(remaining/mesh_size)` whole elements
(`n_vert * h_y` reproduces the remaining height exactly) of height at least
(not at most) the target size; exactly one plain ring of the fixed sector
count `c` is emitted, advancing names by `c`; and merging is by name — any
registry entry overwritten by the new ring's node of the same name carries
identical coordinates (the previous ring's top circle). -/
def C8Prop (s h radius : ℚ) (c : ℕ) (st : CSt) : Prop :=
  1 ≤ cylNvert s h st
  ∧ ((cylNvert s h st : ℚ)) * cylH s h st = h - st.y
  ∧ (0 < s → s ≤ cylH s h st)
  ∧ (cylRingNodes radius (cylH s h st) c st.y st.rings st.nn).length = 2*c
  ∧ (cylinderStep s h radius c st).map (fun st' => (st'.y, st'.nn, st'.qq, st'.rings, st'.reg))
      = some (st.y + cylH s h st, st.nn + c, st.qq + c, st.rings + 1,
          dictUpdate st.reg (cylRingNodes radius (cylH s h st) c st.y st.rings st.nn))
  ∧ (CInv radius c st →
      ∀ k vOld vNew, rlookup k st.reg = some vOld →
        rlookup k (cylRingNodes radius (cylH s h st) c st.y st.rings st.nn) = some vNew →
        coords vOld = coords vNew)

/-- C8 (amended: each step's element height is at LEAST the target mesh size
— the remaining height is divided into `floor(remaining/size)` equal parts,
so parts exceed the target whenever the size does not divide the remainder,
see `C8_counterexample`; the claim's "at most" direction fails): the axial
sweep loops on `round(y,10) < round(h,10)`, emits exactly one plain ring per
step with the cylinder's fixed sector count (no transition ring exists in
this generator), divides the remaining height evenly, and merges
ring-boundary nodes by name, the overwritten records carrying identical
coordinates. -/
theorem C8_axial_sweep (s h radius : ℚ) (c : ℕ) (st : CSt)
    (hguard : round10 st.y < round10 h)
    (hsome : (cylinderStep s h radius c st).isSome) :
    C8Prop s h radius c st := by
  have hrem : 0 < h - st.y := by
    have := lt_of_round10_lt hguard
    linarith
  unfold cylinderStep at hsome
  by_cases hn : cylNvert s h st = 0
  · rw [if_pos hn] at hsome
    simp at hsome
  rw [if_neg hn] at hsome
  have hn1 : 1 ≤ cylNvert s h st := Nat.pos_of_ne_zero hn
  have hnq : (0:ℚ) < ((cylNvert s h st : ℚ)) := by exact_mod_cast hn1
  refine ⟨hn1, ?_, ?_, rangeMap_length _ _ _, ?_, ?_⟩
  · unfold cylH
    field_simp
  · intro hs
    have hle : ((cylNvert s h st : ℚ)) ≤ (h - st.y)/s :=
      pyint_toNat_le rfl hn1
    unfold cylH
    rw [le_div_iff₀ hnq]
    calc s * ((cylNvert s h st : ℚ)) = ((cylNvert s h st : ℚ)) * s := by ring
      _ ≤ ((h - st.y)/s) * s := by
          apply mul_le_mul_of_nonneg_right hle (le_of_lt hs)
      _ = h - st.y := by field_simp
  · unfold cylinderStep
    rw [if_neg hn]
    rcases hes : plainRingElems (cylRingNodes radius (cylH s h st) c st.y st.rings st.nn)
        c st.nn st.qq with _ | es
    · rw [hes] at hsome
      simp at hsome
    · simp
  · intro inv k vOld vNew hOld hNew
    unfold cylRingNodes at hNew
    rw [rlookup_rangeMap] at hNew
    by_cases hin : st.nn ≤ k ∧ k < st.nn + 2*c
    · rw [if_pos hin] at hNew
      obtain rfl := (Option.some.inj hNew).symm
      have hlt := inv.keyLT k vOld hOld
      have hbd := inv.bdry k vOld hOld hin.1
      set idx := k - st.nn + 1 with hidx
      have hbot : idx ≤ c := by omega
      unfold cylRingNodeVal
      rw [if_pos hbot, hbd]
      unfold coords
      have : ((idx:ℚ) - 1) = (((k - st.nn : ℕ)):ℚ) := by
        have : idx - 1 = k - st.nn := by omega
        rw [← this, Nat.cast_sub (by omega)]
        push_cast
        ring
      rw [this]
    · rw [if_neg hin] at hNew
      simp at hNew

/-- C8 counterexample: remaining height `5/2` with target size `1` makes the
first step's element height `5/4 > 1`, refuting "height at most the target
mesh size" (the division count is rounded down, so step heights are at least
the target). -/
theorem C8_counterexample :
    cylH 1 (5/2) ⟨0, 1, 1, [], [], 0⟩ = 5/4
    ∧ ¬ ((5/4 : ℚ) ≤ 1)
    ∧ (cylinderStep 1 (5/2) 1 4 ⟨0, 1, 1, [], [], 0⟩).map (fun st' => st'.y) = some (5/4) := by
  refine ⟨?_, ?_, ?_⟩ <;> with_unfolding_all decide

/-- C8 witness: the amended per-step facts at the same concrete
configuration (radius 1, height 5/2, four sectors). -/
theorem C8_witness :
    round10 (0:ℚ) < round10 (5/2)
    ∧ (cylinderStep 1 (5/2) 1 4 ⟨0, 1, 1, [], [], 0⟩).isSome = true
    ∧ C8Prop 1 (5/2) 1 4 ⟨0, 1, 1, [], [], 0⟩ :=
  ⟨by with_unfolding_all decide, by with_unfolding_all decide,
   C8_axial_sweep 1 (5/2) 1 4 ⟨0, 1, 1, [], [], 0⟩ (by with_unfolding_all decide)
     (by with_unfolding_all decide)⟩

/-! ### Claim C6: the plain annular ring -/

/-- Euclidean distance of two Cartesian points. -/
noncomputable def cartDist (a b : ℝ × ℝ × ℝ) : ℝ :=
  Real.sqrt ((a.1 - b.1)^2 + (a.2.1 - b.2.1)^2 + (a.2.2 - b.2.2)^2)

/-- For a flat ring revolved about the Y axis and centred at the origin, a
node's distance to the origin is exactly its radius. -/
theorem cartDist_axisY (p : PNode) (hoff : p.off = 0) (hrad : 0 ≤ p.radius) :
    cartDist (toCart Axis.Y 0 0 0 p) (0, 0, 0) = ((p.radius : ℚ) : ℝ) := by
  unfold cartDist toCart
  dsimp only
  rw [hoff]
  have hr : (0:ℝ) ≤ ((p.radius : ℚ) : ℝ) := by exact_mod_cast hrad
  have hid := Real.sin_sq_add_cos_sq (2*Real.pi*((p.turn : ℚ) : ℝ))
  have harg : ((0:ℚ):ℝ) + ((p.radius:ℚ):ℝ) * Real.cos (2*Real.pi*((p.turn:ℚ):ℝ)) - 0 = 
      ((p.radius:ℚ):ℝ) * Real.cos (2*Real.pi*((p.turn:ℚ):ℝ)) := by push_cast; ring
  have hsq : (((0:ℚ):ℝ) + ((p.radius:ℚ):ℝ) * Real.cos (2*Real.pi*((p.turn:ℚ):ℝ)) - 0)^2
      + (((0:ℚ):ℝ) - 0)^2
      + (((0:ℚ):ℝ) + ((p.radius:ℚ):ℝ) * Real.sin (2*Real.pi*((p.turn:ℚ):ℝ)) - 0)^2
      = (((p.radius:ℚ):ℝ))^2 := by
    push_cast
    nlinarith [hid]
  rw [hsq]
  exact Real.sqrt_sq hr

/-- Conclusion of claim C6 (general part, with the corner assignment amended
to what the source builds): the ring has 2n nodes — `1..n` at radius `r1`,
`n+1..2n` at radius `r2`, each section equally spaced with turn `(i-1)/n`
from angle 0 — and n elements whose references are
`(i, j, m, n) = (outer-current, outer-next, inner-next, inner-current)`,
with sector `n` wrapping to 1 for the last element's "next" pair. -/
def C6Prop (c : ℕ) (r1 r2 o : ℚ) (stamp startN startQ : ℕ) : Prop :=
  (plainRingNodes r1 r2 c o stamp startN).length = 2*c
  ∧ (∀ k, k < 2*c →
      rlookup (startN + k) (plainRingNodes r1 r2 c o stamp startN)
        = some (ringNodeVal r1 r2 c o stamp (k+1)))
  ∧ (∀ i, 1 ≤ i → i ≤ c → ringNodeVal r1 r2 c o stamp i = ⟨r1, ((i:ℚ)-1)/(c:ℚ), o, stamp⟩)
  ∧ (∀ i, c < i → i ≤ 2*c →
      ringNodeVal r1 r2 c o stamp i = ⟨r2, ((i:ℚ)-(c:ℚ)-1)/(c:ℚ), o, stamp⟩)
  ∧ ∃ es, plainRingElems (plainRingNodes r1 r2 c o stamp startN) c startN startQ = some es
      ∧ es.length = c
      ∧ ∀ p ∈ es, ∃ i, 1 ≤ i ∧ i ≤ c ∧
          p.1 = nameOf startQ i
          ∧ p.2.ci = ⟨nameOf startN (i + c), ringNodeVal r1 r2 c o stamp (i + c)⟩
          ∧ p.2.cj = ⟨nameOf startN ((if i = c then 1 else i + 1) + c),
              ringNodeVal r1 r2 c o stamp ((if i = c then 1 else i + 1) + c)⟩
          ∧ p.2.cm = ⟨nameOf startN (if i = c then 1 else i + 1),
              ringNodeVal r1 r2 c o stamp (if i = c then 1 else i + 1)⟩
          ∧ p.2.cn = ⟨nameOf startN i, ringNodeVal r1 r2 c o stamp i⟩

/-- Concrete part of claim C6: for `outer_radius = 2, inner_radius = 1,
num_quads = 4` (axis Y, origin 0), the four inner nodes are at distance 1
from the origin, the four outer nodes at distance 2, and the node turns —
hence the elements' corner angles — are exactly 0°, 90°, 180°, 270°. -/
def C6ConcreteProp : Prop :=
  (∀ i, 1 ≤ i → i ≤ 4 →
      cartDist (toCart Axis.Y 0 0 0 (ringNodeVal 1 2 4 0 0 i)) (0, 0, 0) = 1)
  ∧ (∀ i, 5 ≤ i → i ≤ 8 →
      cartDist (toCart Axis.Y 0 0 0 (ringNodeVal 1 2 4 0 0 i)) (0, 0, 0) = 2)
  ∧ (List.range 8).map (fun k => (ringNodeVal 1 2 4 0 0 (k+1)).turn)
      = [0, 1/4, 1/2, 3/4, 0, 1/4, 1/2, 3/4]

/-- C6 (amended: the element's node references `(i, j, m, n)` are
`(outer-current, outer-next, inner-next, inner-current)` — the cyclic order
the claim lists, but read in the order `(n, m, j, i)`; the source does not
put the inner-current corner first, see `C6_counterexample`): everything
else as claimed, including the worked 4-sector instance. -/
theorem C6_plain_ring (c : ℕ) (hc : 1 ≤ c) (r1 r2 o : ℚ) (stamp startN startQ : ℕ) :
    C6Prop c r1 r2 o stamp startN startQ ∧ C6ConcreteProp := by
  constructor
  · refine ⟨rangeMap_length _ _ _, ?_, ?_, ?_, ?_⟩
    · intro k hk
      unfold plainRingNodes
      rw [rlookup_rangeMap]
      have : startN ≤ startN + k ∧ startN + k < startN + 2*c := by omega
      rw [if_pos this]
      simp
    · intro i h1 h2
      unfold ringNodeVal
      rw [if_pos h2]
    · intro i h1 h2
      unfold ringNodeVal
      rw [if_neg (by omega)]
    · have hsome : (plainRingElems (plainRingNodes r1 r2 c o stamp startN) c startN startQ).isSome := by
        apply omap_isSome
        intro k hk
        have hk' : k < c := List.mem_range.mp hk
        rw [ringElemAt_eq r1 r2 o c stamp startN startQ (k+1) hc (by omega) (by omega)]
        rfl
      rcases hes : plainRingElems (plainRingNodes r1 r2 c o stamp startN) c startN startQ with _ | es
      · rw [hes] at hsome
        exact absurd hsome (by simp)
      refine ⟨es, rfl, by simpa using omap_length _ _ _ hes, ?_⟩
      intro p hp
      obtain ⟨k, hkmem, hgk⟩ := omap_mem _ _ _ hes p hp
      have hk' : k < c := List.mem_range.mp hkmem
      rw [ringElemAt_eq r1 r2 o c stamp startN startQ (k+1) hc (by omega) (by omega)] at hgk
      refine ⟨k+1, by omega, by omega, ?_⟩
      have hpe := (Option.some.inj hgk).symm
      subst hpe
      have hrefs : ringRefs c (k+1) =
          (k+1 + c, (if k+1 = c then 1 else k+2) + c, (if k+1 = c then 1 else k+2), k+1) := by
        unfold ringRefs
        by_cases hkc : k+1 = c
        · rw [if_neg (by omega : ¬ k+1 ≠ c), if_pos hkc]
        · rw [if_pos hkc, if_neg hkc]
      rw [hrefs]
      dsimp only
      exact ⟨rfl, rfl, rfl, rfl, rfl⟩
  · refine ⟨?_, ?_, ?_⟩
    · intro i h1 h2
      have hval : ringNodeVal 1 2 4 0 0 i = ⟨1, ((i:ℚ)-1)/4, 0, 0⟩ := by
        unfold ringNodeVal
        rw [if_pos (by omega)]
        norm_num
      rw [hval]
      have := cartDist_axisY ⟨1, ((i:ℚ)-1)/4, 0, 0⟩ rfl (by norm_num)
      simpa using this
    · intro i h1 h2
      have hval : ringNodeVal 1 2 4 0 0 i = ⟨2, ((i:ℚ)-4-1)/4, 0, 0⟩ := by
        unfold ringNodeVal
        rw [if_neg (by omega)]
        norm_num
      rw [hval]
      have := cartDist_axisY ⟨2, ((i:ℚ)-4-1)/4, 0, 0⟩ rfl (by norm_num)
      simpa using this
    · with_unfolding_all decide

/-- C6 counterexample: in the 4-sector worked instance the first element's
`i` reference is node `N5` — the outer-current node at radius 2 — not the
inner-current node `N1` at radius 1, so the corners are not ordered
`(i, j, m, n) = (inner-current, inner-next, outer-next, outer-current)` as
claimed. -/
theorem C6_counterexample :
    ((plainRingElems (plainRingNodes 1 2 4 0 0 1) 4 1 1).bind (rlookup 1)).map
        (fun e => (e.ci.name, e.ci.nd.radius)) = some (5, 2)
    ∧ ((2:ℚ)) ≠ 1 := by
  refine ⟨?_, ?_⟩ <;> with_unfolding_all decide

/-- C6 witness: the amended theorem applied to the worked instance
(`num_quads = 4`, radii 1 and 2). -/
theorem C6_witness : 1 ≤ 4 ∧ (C6Prop 4 1 2 0 0 1 1 ∧ C6ConcreteProp) :=
  ⟨by norm_num, C6_plain_ring 4 (by norm_num) 1 2 0 0 1 1⟩

/-! ### Claim C7: the frustum post-processor -/

/-- Axis component of the origin (what the sweeps receive as the constant
coordinate of a flat ring). -/
def axisOff (axis : Axis) (ox oy oz : ℚ) : ℚ :=
  match axis with
  | Axis.X => ox
  | Axis.Y => oy
  | Axis.Z => oz

/-- The quantity `r = ((X - Xo)**2 + (Z - Zo)**2)**0.5` computed by
`FrustrumMesh.__init__` for every node — note it uses the global X and Z
coordinates regardless of the revolution axis. -/
noncomputable def frustumRho (axis : Axis) (ox oy oz : ℚ) (p : PNode) : ℝ :=
  Real.sqrt (((toCart axis ox oy oz p).1 - (ox:ℝ))^2
    + ((toCart axis ox oy oz p).2.2 - (oz:ℝ))^2)

/-- Node record of the frustum: the annulus node with its axis coordinate
displaced by `(r - large_radius)/(large_radius - small_radius)*height`. -/
structure FNode where
  radius : ℚ
  turn : ℚ
  off : ℝ
  stamp : ℕ

noncomputable def frustumNode (axis : Axis) (ox oy oz R rS hgt : ℚ) (p : PNode) : FNode :=
  ⟨p.radius, p.turn,
   (p.off : ℝ) + (frustumRho axis ox oy oz p - (R:ℝ))/((R:ℝ) - (rS:ℝ)) * (hgt:ℝ),
   p.stamp⟩

/-- Embedding of `FrustrumMesh.__init__`: build the annulus from
`small_radius` to `large_radius`, then displace every node of its registry
along the revolution axis. -/
noncomputable def frustrumGen (fuel : ℕ) (s R rS hgt ox oy oz : ℚ) (axis : Axis)
    (n0 q0 : ℕ) : Option (List (ℕ × FNode)) :=
  (annulusGen fuel s rS R (axisOff axis ox oy oz) n0 q0).map
    (fun m => m.reg.map (fun p => (p.1, frustumNode axis ox oy oz R rS hgt p.2)))

theorem rlookup_map_val {β γ : Type} (f : β → γ) (k : ℕ) (l : List (ℕ × β)) :
    rlookup k (l.map (fun p => (p.1, f p.2))) = (rlookup k l).map f := by
  induction l with
  | nil => rfl
  | cons e t ih =>
    by_cases he : e.1 = k <;> simp [rlookup, he, ih]

/-- For revolution about the Y axis the computed `r` is the node's own
radial distance from the axis. -/
theorem frustumRho_axisY (ox oy oz : ℚ) (p : PNode) (h : 0 ≤ p.radius) :
    frustumRho Axis.Y ox oy oz p = ((p.radius : ℚ) : ℝ) := by
  unfold frustumRho toCart
  dsimp only
  have hr : (0:ℝ) ≤ ((p.radius : ℚ) : ℝ) := by exact_mod_cast h
  have hid := Real.sin_sq_add_cos_sq (2*Real.pi*((p.turn : ℚ) : ℝ))
  have hsq : ((ox:ℝ) + ((p.radius:ℚ):ℝ) * Real.cos (2*Real.pi*((p.turn:ℚ):ℝ)) - (ox:ℝ))^2
      + ((oz:ℝ) + ((p.radius:ℚ):ℝ) * Real.sin (2*Real.pi*((p.turn:ℚ):ℝ)) - (oz:ℝ))^2
      = (((p.radius:ℚ):ℝ))^2 := by
    nlinarith [hid]
  rw [hsq]
  exact Real.sqrt_sq hr

/-- Conclusion of claim C7 (general part, with the displacement rebased to
the quantity the source actually computes): every node of the generated
annulus is displaced along the revolution axis by
`(rho - large_radius)/(large_radius - small_radius) * height` where
`rho = sqrt((X-Xo)^2 + (Z-Zo)^2)`; for axis `'Y'` `rho` equals the node's
own radial distance from the revolution axis. -/
def C7Prop (fuel : ℕ) (s R rS hgt ox oy oz : ℚ) (axis : Axis) (n0 q0 : ℕ) : Prop :=
  ∀ reg', frustrumGen fuel s R rS hgt ox oy oz axis n0 q0 = some reg' →
    ∀ mesh, annulusGen fuel s rS R (axisOff axis ox oy oz) n0 q0 = some mesh →
      ∀ k p, rlookup k mesh.reg = some p →
        rlookup k reg' = some (frustumNode axis ox oy oz R rS hgt p)
        ∧ (frustumNode axis ox oy oz R rS hgt p).off
            = (p.off : ℝ) + (frustumRho axis ox oy oz p - (R:ℝ))/((R:ℝ) - (rS:ℝ)) * (hgt:ℝ)
        ∧ (axis = Axis.Y → 0 ≤ p.radius →
            frustumRho axis ox oy oz p = ((p.radius : ℚ) : ℝ))

/-- Concrete part of claim C7 (amended sign): for
`large_radius = 2, small_radius = 1, height = 5` about the Y axis, every
node originally at radius 2 ends with axis offset 0 and every node at
radius 1 ends with axis offset `-5` (not `+5`). -/
def C7ConcreteProp : Prop :=
  ∀ reg', frustrumGen 8 1 2 1 5 0 0 0 Axis.Y 1 1 = some reg' →
    ∀ k fp, rlookup k reg' = some fp →
      (fp.radius = 2 → fp.off = 0) ∧ (fp.radius = 1 → fp.off = -5)

/-- C7 (amended: the displaced amount uses `r = sqrt((X-Xo)^2 + (Z-Zo)^2)`,
which equals the node's own radial distance from the revolution axis for
axis `'Y'` only — for `'X'` and `'Z'` it is the planar X–Z distance, not the
distance from the axis, see `C7_counterexample`; and in the worked instance
the inner edge ends at axis offset `-5`, not `+5`): every node of the
generated annulus is displaced along the revolution axis by
`(r - large_radius)/(large_radius - small_radius) * height`. -/
theorem C7_frustum_taper (fuel : ℕ) (s R rS hgt ox oy oz : ℚ) (axis : Axis) (n0 q0 : ℕ)
    (_hgen : (annulusGen fuel s rS R (axisOff axis ox oy oz) n0 q0).isSome) :
    C7Prop fuel s R rS hgt ox oy oz axis n0 q0 ∧ C7ConcreteProp := by
  constructor
  · intro reg' hreg mesh hmesh k p hk
    unfold frustrumGen at hreg
    rw [hmesh] at hreg
    have hreg2 : reg' = mesh.reg.map
        (fun p => (p.1, frustumNode axis ox oy oz R rS hgt p.2)) :=
      (Option.some.inj hreg).symm
    refine ⟨?_, rfl, fun hax hrad => by rw [hax]; exact frustumRho_axisY ox oy oz p hrad⟩
    rw [hreg2, rlookup_map_val, hk]
    rfl
  · intro reg' hreg k fp hk
    have hmesh : (annulusGen 8 1 1 2 0 1 1).isSome := by with_unfolding_all decide
    rcases hm : annulusGen 8 1 1 2 0 1 1 with _ | mesh
    · rw [hm] at hmesh
      exact absurd hmesh (by simp)
    have hall : mesh.reg.all
        (fun p => decide (p.2.off = 0) && (decide (p.2.radius = 1) || decide (p.2.radius = 2))
          && decide (0 ≤ p.2.radius)) = true := by
      have : (annulusGen 8 1 1 2 0 1 1).map
          (fun m => m.reg.all
            (fun p => decide (p.2.off = 0) && (decide (p.2.radius = 1) || decide (p.2.radius = 2))
              && decide (0 ≤ p.2.radius))) = some true := by
        with_unfolding_all decide
      rw [hm] at this
      exact Option.some.inj this
    unfold frustrumGen at hreg
    have hax : axisOff Axis.Y (0:ℚ) 0 0 = 0 := rfl
    rw [hax, hm] at hreg
    have hreg2 : reg' = mesh.reg.map
        (fun p => (p.1, frustumNode Axis.Y 0 0 0 2 1 5 p.2)) := (Option.some.inj hreg).symm
    rw [hreg2, rlookup_map_val] at hk
    rcases hkm : rlookup k mesh.reg with _ | p <;> rw [hkm] at hk
    · simp at hk
    have hfp : fp = frustumNode Axis.Y 0 0 0 2 1 5 p := by
      have : some (frustumNode Axis.Y 0 0 0 2 1 5 p) = some fp := hk
      exact (Option.some.inj this).symm
    have hpmem := rlookup_mem hkm
    have hprops := List.all_eq_true.mp hall _ hpmem
    simp only [Bool.and_eq_true, Bool.or_eq_true, decide_eq_true_eq] at hprops
    obtain ⟨⟨hoff, hrad12⟩, hrnn⟩ := hprops
    have hrho : frustumRho Axis.Y 0 0 0 p = ((p.radius : ℚ) : ℝ) :=
      frustumRho_axisY 0 0 0 p hrnn
    constructor
    · intro h2
      have h2' : p.radius = 2 := by rw [hfp] at h2; exact h2
      rw [hfp]
      unfold frustumNode
      dsimp only
      rw [hrho, hoff, h2']
      push_cast
      ring
    · intro h1
      have h1' : p.radius = 1 := by rw [hfp] at h1; exact h1
      rw [hfp]
      unfold frustumNode
      dsimp only
      rw [hrho, hoff, h1']
      push_cast
      ring

/-- C7 counterexample: in the worked Y-axis instance node `N1` (radius 1)
ends at axis offset `-5`, not the claimed `+5`; and about the Z axis the
same node is displaced to `-10` although its radial distance from the
revolution axis is 1, for which the claimed formula gives `-5` — the source
uses the planar X–Z distance, not the distance from the axis, for axes `'X'`
and `'Z'`. -/
theorem C7_counterexample :
    ((frustrumGen 8 1 2 1 5 0 0 0 Axis.Y 1 1).bind (rlookup 1)).map (fun fp => fp.off)
        = some (-5)
    ∧ ((-5 : ℝ) ≠ 5)
    ∧ ((frustrumGen 8 1 2 1 5 0 0 0 Axis.Z 1 1).bind (rlookup 1)).map (fun fp => fp.off)
        = some (-10)
    ∧ Real.sqrt ((toCart Axis.Z 0 0 0 ⟨1, 0, 0, 0⟩).1^2
        + (toCart Axis.Z 0 0 0 ⟨1, 0, 0, 0⟩).2.1^2) = 1
    ∧ ((1:ℝ) - 2)/((2:ℝ) - 1)*5 = -5
    ∧ ((-10 : ℝ) ≠ -5) := by
  have hlk : ∀ ax : Axis, (annulusGen 8 1 1 2 (axisOff ax 0 0 0) 1 1).map
      (fun m => rlookup 1 m.reg) = some (some ⟨1, 0, 0, 0⟩) := by
    intro ax
    cases ax <;> with_unfolding_all decide
  have hmain : ∀ ax : Axis,
      ((frustrumGen 8 1 2 1 5 0 0 0 ax 1 1).bind (rlookup 1)).map (fun fp => fp.off)
        = some ((frustumNode ax 0 0 0 2 1 5 ⟨1, 0, 0, 0⟩).off) := by
    intro ax
    have h := hlk ax
    rcases hm : annulusGen 8 1 1 2 (axisOff ax 0 0 0) 1 1 with _ | mesh <;> rw [hm] at h
    · simp at h
    have hl : rlookup 1 mesh.reg = some ⟨1, 0, 0, 0⟩ := by
      have : some (rlookup 1 mesh.reg) = some (some ⟨1, 0, 0, 0⟩) := h
      exact Option.some.inj this
    have h2 : frustrumGen 8 1 2 1 5 0 0 0 ax 1 1
        = some (mesh.reg.map (fun p => (p.1, frustumNode ax 0 0 0 2 1 5 p.2))) := by
      unfold frustrumGen
      rw [hm]
      rfl
    rw [h2, Option.some_bind, rlookup_map_val, hl, Option.map_some']
    rfl
  have hcos0 : Real.cos (2*Real.pi*(((0:ℚ):ℝ))) = 1 := by
    push_cast
    simp [Real.cos_zero]
  have hsin0 : Real.sin (2*Real.pi*(((0:ℚ):ℝ))) = 0 := by
    push_cast
    simp [Real.sin_zero]
  refine ⟨?_, by norm_num, ?_, ?_, by norm_num, by norm_num⟩
  · rw [hmain Axis.Y]
    unfold frustumNode frustumRho toCart
    dsimp only
    rw [hcos0, hsin0]
    norm_num
  · rw [hmain Axis.Z]
    unfold frustumNode frustumRho toCart
    dsimp only
    rw [hsin0]
    norm_num
  · unfold toCart
    dsimp only
    rw [hcos0, hsin0]
    norm_num [Real.sqrt_one]

/-- C7 witness: the amended theorem applied to the worked instance. -/
theorem C7_witness :
    (annulusGen 8 1 1 2 (axisOff Axis.Y 0 0 0) 1 1).isSome = true
    ∧ (C7Prop 8 1 2 1 5 0 0 0 Axis.Y 1 1 ∧ C7ConcreteProp) :=
  ⟨by with_unfolding_all decide,
   C7_frustum_taper 8 1 2 1 5 0 0 0 Axis.Y 1 1 (by with_unfolding_all decide)⟩

/-! ### Claim C4: the rectangle grid builder

`RectangleMesh.generate` meshes each span between adjacent control points
with `ny = max(1, (p[k]-p[k-1])/mesh_size)`, element size
`(p[k]-p[k-1])/ceil(ny)`, and a `while round(x,10) <= round(p[k],10)` loop;
between segments it does `x -= b_old; x += b_new`. -/

/-- Element count the source computes for one control segment:
`ceil(max(1, (q - p)/mesh_size))`. -/
def segN (s p q : ℚ) : ℕ := (pyceil (max 1 ((q - p) / s))).toNat

/-- Exact element size for one control segment: `(q - p)/ceil(ny)`. -/
def segB (s p q : ℚ) : ℚ := (q - p) / ((pyceil (max 1 ((q - p) / s)) : ℤ) : ℚ)

/-- The inner `while round(x, 10) <= round(ctrl, 10)` loop: emit `x` and
advance by `b` until the rounded guard fails; returns the emitted points and
the final (overshot) value of `x`. Fuel exhaustion with the guard still true
is `none`. -/
def sweepSeg (b target : ℚ) : ℕ → ℚ → Option (List ℚ × ℚ)
  | 0, x => if round10 x ≤ round10 target then none else some ([], x)
  | f + 1, x =>
    if round10 x ≤ round10 target then
      (sweepSeg b target f (x + b)).map (fun r => (x :: r.1, r.2))
    else some ([], x)

/-- The `for i in range(1, len(x_control))` loop of the grid builder: on the
first segment `x` enters the while loop unchanged; on later segments the
source does `x -= b_old; x += b_new` first. -/
def gridSegs (fuel : ℕ) (s : ℚ) : Bool → ℚ → ℚ → ℚ → List ℚ → Option (List ℚ)
  | _, _, _, _, [] => some []
  | true, x, _, prev, c :: rest =>
    (sweepSeg (segB s prev c) c fuel x).bind (fun r =>
      (gridSegs fuel s false r.2 (segB s prev c) c rest).map (fun tl => r.1 ++ tl))
  | false, x, bOld, prev, c :: rest =>
    (sweepSeg (segB s prev c) c fuel (x - bOld + segB s prev c)).bind (fun r =>
      (gridSegs fuel s false r.2 (segB s prev c) c rest).map (fun tl => r.1 ++ tl))

/-- One full run of the grid builder over the sorted control-point list
(the sweep variable starts at 0, as in the source). -/
def gridPoints (fuel : ℕ) (s : ℚ) (ctrl : List ℚ) : Option (List ℚ) :=
  match ctrl with
  | [] => some []
  | c0 :: rest => gridSegs fuel s true 0 0 c0 rest

/-- The grid points a non-first segment should contribute:
`p + j*b` for `j = 1..segN` (the segment start `p` was already emitted by the
previous segment). -/
def expectedSegTail (s p q : ℚ) : List ℚ :=
  (List.range (segN s p q)).map (fun j : ℕ => p + ((j : ℚ) + 1) * segB s p q)

/-- Grid points contributed by all segments after the first point. -/
def expectedTail (s : ℚ) : ℚ → List ℚ → List ℚ
  | _, [] => []
  | p, q :: rest => expectedSegTail s p q ++ expectedTail s q rest

theorem segN_pos (s p q : ℚ) : 1 ≤ segN s p q := by
  unfold segN pyceil
  have h2 : (1:ℤ) ≤ ⌈max 1 ((q - p) / s)⌉ := by
    have := Int.ceil_mono (le_max_left 1 ((q - p) / s))
    rw [Int.ceil_one] at this
    exact this
  omega

theorem segB_pos {s p q : ℚ} (_hs : 0 < s) (hpq : p < q) : 0 < segB s p q := by
  unfold segB pyceil
  have h2 : (1:ℤ) ≤ ⌈max 1 ((q - p) / s)⌉ := by
    have := Int.ceil_mono (le_max_left 1 ((q - p) / s))
    rw [Int.ceil_one] at this
    exact this
  have hc : (0:ℚ) < ((⌈max 1 ((q - p) / s)⌉ : ℤ) : ℚ) := by
    exact_mod_cast Int.lt_iff_add_one_le.mpr h2
  exact div_pos (by linarith) hc

theorem segN_mul_segB (s p q : ℚ) : (segN s p q : ℚ) * segB s p q = q - p := by
  unfold segN segB pyceil
  have h2 : (1:ℤ) ≤ ⌈max 1 ((q - p) / s)⌉ := by
    have := Int.ceil_mono (le_max_left 1 ((q - p) / s))
    rw [Int.ceil_one] at this
    exact this
  have h4 : ((⌈max 1 ((q - p) / s)⌉.toNat : ℕ) : ℚ) = ((⌈max 1 ((q - p) / s)⌉ : ℤ) : ℚ) := by
    exact_mod_cast Int.toNat_of_nonneg (by omega)
  have hne : ((⌈max 1 ((q - p) / s)⌉ : ℤ) : ℚ) ≠ 0 := by
    have : (0:ℚ) < ((⌈max 1 ((q - p) / s)⌉ : ℤ) : ℚ) := by
      exact_mod_cast Int.lt_iff_add_one_le.mpr h2
    linarith
  rw [h4, mul_comm, div_mul_cancel₀ _ hne]

theorem segN_eq_claim {s p q : ℚ} (hs : 0 < s) (hpq : p < q) :
    segN s p q = max 1 (pyceil ((q - p) / s)).toNat := by
  unfold segN pyceil
  have hdpos : 0 < (q - p) / s := div_pos (by linarith) hs
  rcases le_or_lt ((q - p) / s) 1 with h | h
  · rw [max_eq_left h]
    have hle : ⌈(q - p) / s⌉ ≤ 1 := Int.ceil_le.mpr (by exact_mod_cast h)
    have hpos : 0 < ⌈(q - p) / s⌉ := Int.ceil_pos.mpr hdpos
    have hc1 : ⌈(q - p) / s⌉ = 1 := by omega
    rw [hc1]
    simp [Int.ceil_one]
  · rw [max_eq_right (le_of_lt h)]
    have h1 : (1:ℤ) ≤ ⌈(q - p) / s⌉ := by
      have := Int.ceil_mono (le_of_lt h)
      rw [Int.ceil_one] at this
      exact this
    omega

theorem range_map_shift (n : ℕ) (x b : ℚ) :
    (List.range (n + 1)).map (fun j : ℕ => x + (j : ℚ) * b)
      = x :: (List.range n).map (fun j : ℕ => x + ((j : ℚ) + 1) * b) := by
  rw [List.range_succ_eq_map, List.map_cons, List.map_map]
  simp only [Nat.cast_zero, zero_mul, add_zero]
  congr 1
  apply List.map_congr_left
  intro j _
  simp only [Function.comp_apply]
  push_cast
  ring

theorem sweepSeg_stop {b target x : ℚ} (h : ¬ round10 x ≤ round10 target) (fuel : ℕ) :
    sweepSeg b target fuel x = some ([], x) := by
  cases fuel <;> simp [sweepSeg, h]

/-- Exact run of the while loop when the guard resolution is clean: if the
step `b` is at least two rounding ulps and `x + n*b` hits the target exactly,
the loop emits the `n + 1` points `x + j*b` and leaves `x` at `target + b`. -/
theorem sweepSeg_exact (b target : ℚ) (hb : 2/10000000000 ≤ b) :
    ∀ (n fuel : ℕ) (x : ℚ), x + (n : ℚ) * b = target → n + 1 ≤ fuel →
    sweepSeg b target fuel x
      = some ((List.range (n + 1)).map (fun j : ℕ => x + (j : ℚ) * b), target + b) := by
  intro n
  induction n with
  | zero =>
    intro fuel x hend hfuel
    obtain ⟨f, rfl⟩ : ∃ f, fuel = f + 1 := ⟨fuel - 1, by omega⟩
    have hx : x = target := by push_cast at hend; linarith
    have hguard : round10 x ≤ round10 target := by rw [hx]
    have hstop : ¬ round10 (x + b) ≤ round10 target := by
      rw [hx]
      exact not_le.mpr (round10_lt_add hb)
    simp only [sweepSeg, if_pos hguard, sweepSeg_stop hstop f]
    simp [hx, List.range_succ]
  | succ n ih =>
    intro fuel x hend hfuel
    obtain ⟨f, rfl⟩ : ∃ f, fuel = f + 1 := ⟨fuel - 1, by omega⟩
    have hbpos : (0:ℚ) < b := lt_of_lt_of_le (by norm_num) hb
    have hn0 : (0:ℚ) ≤ (n : ℚ) := Nat.cast_nonneg n
    have hexp : ((n:ℚ) + 1) * b = (n:ℚ) * b + b := by ring
    have hxle : x ≤ target := by
      push_cast at hend
      nlinarith
    have hguard : round10 x ≤ round10 target := round10_mono hxle
    have hend' : (x + b) + (n : ℚ) * b = target := by
      push_cast at hend
      linarith
    have hrec := ih f (x + b) hend' (by omega)
    simp only [sweepSeg, if_pos hguard, hrec, Option.map_some]
    rw [range_map_shift (n + 1) x b]
    have htl : (List.range (n + 1)).map (fun j : ℕ => x + ((j : ℚ) + 1) * b)
        = (List.range (n + 1)).map (fun j : ℕ => (x + b) + (j : ℚ) * b) := by
      apply List.map_congr_left
      intro j _
      ring
    rw [htl]
    rfl
/-- The per-segment side conditions under which the rounded while-guard
resolves cleanly: adjacent control points strictly increase, the exact
element size is at least two rounding ulps, and the fuel covers the
segment's iterations. -/
@[reducible] def segOK (fuel : ℕ) (s p q : ℚ) : Prop :=
  p < q ∧ 2/10000000000 ≤ segB s p q ∧ segN s p q + 1 ≤ fuel

theorem gridSegs_tail (fuel : ℕ) (s : ℚ) (_hs : 0 < s) :
    ∀ (rest : List ℚ) (prev bOld x : ℚ), x = prev + bOld →
      List.Chain' (segOK fuel s) (prev :: rest) →
      gridSegs fuel s false x bOld prev rest = some (expectedTail s prev rest) := by
  intro rest
  induction rest with
  | nil => intro prev bOld x _ _; rfl
  | cons c rest' ih =>
    intro prev bOld x hx hch
    rw [List.chain'_cons] at hch
    obtain ⟨⟨hpq, hb, hf⟩, hch'⟩ := hch
    have hN1 : 1 ≤ segN s prev c := segN_pos s prev c
    have hmul : (segN s prev c : ℚ) * segB s prev c = c - prev := segN_mul_segB s prev c
    have hcast : ((segN s prev c - 1 : ℕ) : ℚ) = (segN s prev c : ℚ) - 1 := by
      rw [Nat.cast_sub hN1, Nat.cast_one]
    have hend : (x - bOld + segB s prev c)
        + ((segN s prev c - 1 : ℕ) : ℚ) * segB s prev c = c := by
      rw [hx, hcast]
      linear_combination hmul
    have hsw := sweepSeg_exact (segB s prev c) c hb (segN s prev c - 1) fuel
      (x - bOld + segB s prev c) hend (by omega)
    simp only [gridSegs]
    rw [hsw, Option.some_bind, ih c (segB s prev c) (c + segB s prev c) rfl hch',
      Option.map_some']
    dsimp only
    have hn : segN s prev c - 1 + 1 = segN s prev c := by omega
    rw [hn]
    congr 1
    show _ = expectedTail s prev (c :: rest')
    simp only [expectedTail]
    congr 1
    unfold expectedSegTail
    apply List.map_congr_left
    intro j _
    rw [hx]
    ring
theorem expectedSegTail_mem {s p q z : ℚ} (hs : 0 < s) (hpq : p < q)
    (hz : z ∈ expectedSegTail s p q) : p < z ∧ z ≤ q := by
  unfold expectedSegTail at hz
  obtain ⟨j, hj, rfl⟩ := List.mem_map.mp hz
  have hjN : j < segN s p q := List.mem_range.mp hj
  have hbpos : 0 < segB s p q := segB_pos hs hpq
  have hmul := segN_mul_segB s p q
  have hj1 : ((j : ℚ) + 1) ≤ (segN s p q : ℚ) := by exact_mod_cast hjN
  constructor
  · have h0 : (0:ℚ) < ((j : ℚ) + 1) * segB s p q := by positivity
    linarith
  · nlinarith

theorem expectedTail_mem_lb (s : ℚ) (hs : 0 < s) :
    ∀ (rest : List ℚ) (prev z : ℚ), List.Chain' (· < ·) (prev :: rest) →
      z ∈ expectedTail s prev rest → prev < z := by
  intro rest
  induction rest with
  | nil =>
    intro prev z _ hz
    exact absurd hz (by simp [expectedTail])
  | cons c rest' ih =>
    intro prev z hch hz
    rw [List.chain'_cons] at hch
    obtain ⟨hpc, hch'⟩ := hch
    simp only [expectedTail, List.mem_append] at hz
    rcases hz with hz | hz
    · exact (expectedSegTail_mem hs hpc hz).1
    · exact lt_trans hpc (ih c z hch' hz)

theorem expectedTail_pairwise (s : ℚ) (hs : 0 < s) :
    ∀ (rest : List ℚ) (prev : ℚ), List.Chain' (· < ·) (prev :: rest) →
      List.Pairwise (· < ·) (prev :: expectedTail s prev rest) := by
  intro rest
  induction rest with
  | nil => intro prev _; simp [expectedTail]
  | cons c rest' ih =>
    intro prev hch
    have hch2 := hch
    rw [List.chain'_cons] at hch2
    obtain ⟨hpc, hch'⟩ := hch2
    have hih := ih c hch'
    rw [List.pairwise_cons] at hih ⊢
    obtain ⟨hclb, htailpw⟩ := hih
    constructor
    · intro z hz
      exact expectedTail_mem_lb s hs (c :: rest') prev z hch hz
    · simp only [expectedTail]
      rw [List.pairwise_append]
      refine ⟨?_, htailpw, ?_⟩
      · unfold expectedSegTail
        apply List.Pairwise.map _ ?_ (List.pairwise_lt_range _)
        intro a b hab
        have hbpos := segB_pos hs hpc
        have hab' : ((a : ℚ) + 1) < ((b : ℚ) + 1) := by exact_mod_cast Nat.succ_lt_succ hab
        nlinarith
      · intro z1 hz1 z2 hz2
        have h1 := (expectedSegTail_mem hs hpc hz1).2
        have h2 := hclb z2 hz2
        linarith

/-- Conclusion of claim C4 (amended, see `C4_grid_builder`): the grid run
emits exactly the first control point followed by, for each segment, the
arithmetic progression of its `segN` element boundaries; the whole grid is
strictly increasing; and the per-segment count and size are exactly
`max(1, ceil((q-p)/s))` and `(q-p)/count` with `count*size = q - p`. -/
def C4Prop (fuel : ℕ) (s q0 : ℚ) (rest : List ℚ) : Prop :=
  gridPoints fuel s (0 :: q0 :: rest) = some (0 :: expectedTail s 0 (q0 :: rest))
  ∧ List.Pairwise (· < ·) (0 :: expectedTail s 0 (q0 :: rest))
  ∧ List.Chain' (· < ·) (0 :: expectedTail s 0 (q0 :: rest))
  ∧ (∀ p q : ℚ, p < q →
      segN s p q = max 1 (pyceil ((q - p) / s)).toNat
      ∧ (segN s p q : ℚ) * segB s p q = q - p)

/-- C4 (amended: the exact count/size formulas and the strictly increasing,
exactly segment-summing grid hold under the additional per-segment condition
that the computed element size is at least `2·10⁻¹⁰`; without it the rounded
while-guard `round(x,10) <= round(ctrl,10)` admits extra iterations past the
control point, see `C4_counterexample`): for every segment between adjacent
control points the grid builder meshes the segment into
`max(1, ceil((p[k+1]-p[k])/s))` elements of exact size `(p[k+1]-p[k])/count`
whose sizes sum to the segment length exactly, and the concatenated grid is
strictly increasing. -/
theorem C4_grid_builder (fuel : ℕ) (s q0 : ℚ) (rest : List ℚ) (hs : 0 < s)
    (hchain : List.Chain' (segOK fuel s) (0 :: q0 :: rest)) :
    C4Prop fuel s q0 rest := by
  have hlt : List.Chain' (· < ·) (0 :: q0 :: rest) :=
    List.Chain'.imp (fun a b hab => hab.1) hchain
  refine ⟨?_, ?_, ?_, ?_⟩
  · have hch2 := hchain
    rw [List.chain'_cons] at hch2
    obtain ⟨⟨hpq, hb, hf⟩, hch'⟩ := hch2
    have hmul := segN_mul_segB s 0 q0
    have hend : (0:ℚ) + (segN s 0 q0 : ℚ) * segB s 0 q0 = q0 := by
      rw [hmul]
      ring
    have hsw := sweepSeg_exact (segB s 0 q0) q0 hb (segN s 0 q0) fuel 0 hend hf
    have hrec := gridSegs_tail fuel s hs rest q0 (segB s 0 q0) (q0 + segB s 0 q0) rfl hch'
    show gridSegs fuel s true 0 0 0 (q0 :: rest) = _
    simp only [gridSegs]
    rw [hsw, Option.some_bind, hrec, Option.map_some']
    dsimp only
    congr 1
    rw [range_map_shift (segN s 0 q0) 0 (segB s 0 q0)]
    simp only [expectedTail, List.cons_append]
    rfl
  · exact expectedTail_pairwise s hs (q0 :: rest) 0 hlt
  · exact (expectedTail_pairwise s hs (q0 :: rest) 0 hlt).chain'
  · intro p q hpq
    exact ⟨segN_eq_claim hs hpq, segN_mul_segB s p q⟩

set_option maxRecDepth 4000 in
/-- C4 counterexample: with control points `{0, 2·10⁻¹¹}` and mesh size 1 the
claimed count is `max(1, ceil) = 1` element, i.e. 2 grid points — but the
rounded guard lets the sweep emit 3 points, the last one (`4·10⁻¹¹`)
overshooting the span end. -/
theorem C4_counterexample :
    (gridPoints 10 1 [0, 2/100000000000]).map List.length = some 3
    ∧ (gridPoints 10 1 [0, 2/100000000000]).map (fun g => g.getLastD 0)
        = some (4/100000000000)
    ∧ 1 + max 1 (pyceil ((2/100000000000 - 0) / 1)).toNat = 2
    ∧ (3:ℕ) ≠ 2
    ∧ (4/100000000000 : ℚ) ≠ 2/100000000000 := by
  refine ⟨?_, ?_, ?_, by decide, by norm_num⟩
  · with_unfolding_all rfl
  · with_unfolding_all rfl
  · with_unfolding_all decide

/-- C4 witness: the amended theorem on the span `[0, 5]` with control points
`{0, 2, 5}` and mesh size 2. -/
theorem C4_witness :
    ((0:ℚ) < 2 ∧ List.Chain' (segOK 10 2) [0, 2, 5]) ∧ C4Prop 10 2 2 [5] :=
  ⟨⟨by norm_num,
    by
      rw [List.chain'_cons, List.chain'_cons]
      exact ⟨by with_unfolding_all decide, by with_unfolding_all decide,
        List.chain'_singleton _⟩⟩,
   C4_grid_builder 10 2 2 [5] (by norm_num)
     (by
       rw [List.chain'_cons, List.chain'_cons]
       exact ⟨by with_unfolding_all decide, by with_unfolding_all decide,
         List.chain'_singleton _⟩)⟩

/-! ### Claim C5: opening removal in `RectangleMesh.generate`

The removal stage first marks nodes whose local coordinates are strictly
inside an opening (all four comparisons through `round(.,10)`), then marks
elements whose corner rectangle (top-left = `n_node`, bottom-right =
`j_node`) is inclusively inside an opening, deletes the marked elements,
deletes the marked nodes, and finally deletes every remaining node not
referenced as a corner by any surviving element. Node objects are created
once per name, so Python object identity in the orphan sweep coincides with
name equality. -/

inductive Plane
  | XY
  | YZ
  | XZ

/-- A node record of the rectangle mesh: name and global coordinates. -/
structure RNode where
  name : ℕ
  X : ℚ
  Y : ℚ
  Z : ℚ

/-- An element record: name and the four corner node objects (i, j, m, n). -/
structure RElem where
  name : ℕ
  ni : RNode
  nj : RNode
  nm : RNode
  nn : RNode

structure Opening where
  x_left : ℚ
  y_bott : ℚ
  width : ℚ
  height : ℚ

/-- Embedding of `Mesh.node_local_coords`. -/
def nodeLocal (plane : Plane) (ox oy oz : ℚ) (nd : RNode) : ℚ × ℚ :=
  match plane with
  | Plane.XY => (nd.X - ox, nd.Y - oy)
  | Plane.YZ => (nd.Z - oz, nd.Y - oy)
  | Plane.XZ => (nd.X - ox, nd.Z - oz)

/-- The node-marking test: strictly inside the opening, with every
comparison made between values rounded to 10 decimals, as in the source. -/
def nodeInsideB (plane : Plane) (ox oy oz : ℚ) (op : Opening) (nd : RNode) : Bool :=
  let xy := nodeLocal plane ox oy oz nd
  decide (round10 op.x_left < round10 xy.1)
    && decide (round10 xy.1 < round10 (op.x_left + op.width))
    && decide (round10 op.y_bott < round10 xy.2)
    && decide (round10 xy.2 < round10 (op.y_bott + op.height))

/-- The element-marking test: the corner rectangle spanned by the `n` (top
left) and `j` (bottom right) corner nodes lies inclusively inside the
opening, again through rounded comparisons. -/
def elemInsideB (plane : Plane) (ox oy oz : ℚ) (op : Opening) (e : RElem) : Bool :=
  let lt := nodeLocal plane ox oy oz e.nn
  let rb := nodeLocal plane ox oy oz e.nj
  decide (round10 lt.2 ≤ round10 (op.y_bott + op.height))
    && decide (round10 op.y_bott ≤ round10 rb.2)
    && decide (round10 op.x_left ≤ round10 lt.1)
    && decide (round10 rb.1 ≤ round10 (op.x_left + op.width))

/-- Whether element `e` references node name `k` as one of its corners. -/
def refsB (e : RElem) (k : ℕ) : Bool :=
  e.ni.name == k || e.nj.name == k || e.nm.name == k || e.nn.name == k

/-- `node_del_list`: names of nodes strictly inside some opening. -/
def markedNodes (plane : Plane) (ox oy oz : ℚ) (nodes : List RNode)
    (openings : List Opening) : List ℕ :=
  (nodes.filter (fun nd =>
    openings.any (fun op => nodeInsideB plane ox oy oz op nd))).map RNode.name

/-- `element_del_list`: names of elements inclusively inside some opening. -/
def markedElems (plane : Plane) (ox oy oz : ℚ) (elements : List RElem)
    (openings : List Opening) : List ℕ :=
  (elements.filter (fun e =>
    openings.any (fun op => elemInsideB plane ox oy oz op e))).map RElem.name

/-- The element store after the marked elements are deleted. -/
def elemsAfter (plane : Plane) (ox oy oz : ℚ) (elements : List RElem)
    (openings : List Opening) : List RElem :=
  elements.filter (fun e =>
    !((markedElems plane ox oy oz elements openings).contains e.name))

/-- The node store after the marked nodes are deleted. -/
def nodesAfterDel (plane : Plane) (ox oy oz : ℚ) (nodes : List RNode)
    (openings : List Opening) : List RNode :=
  nodes.filter (fun nd =>
    !((markedNodes plane ox oy oz nodes openings).contains nd.name))

/-- The second `node_del_list`: remaining nodes referenced by no surviving
element. -/
def orphanNames (plane : Plane) (ox oy oz : ℚ) (nodes : List RNode)
    (elements : List RElem) (openings : List Opening) : List ℕ :=
  ((nodesAfterDel plane ox oy oz nodes openings).filter (fun nd =>
    !((elemsAfter plane ox oy oz elements openings).any
      (fun e => refsB e nd.name)))).map RNode.name

/-- Embedding of the whole opening-removal stage: build both deletion lists
from the as-generated stores, delete the marked elements, delete the marked
nodes, then delete the orphaned nodes. -/
def removeOpenings (plane : Plane) (ox oy oz : ℚ) (nodes : List RNode)
    (elements : List RElem) (openings : List Opening) :
    List RNode × List RElem :=
  ((nodesAfterDel plane ox oy oz nodes openings).filter (fun nd =>
      !((orphanNames plane ox oy oz nodes elements openings).contains nd.name)),
   elemsAfter plane ox oy oz elements openings)

/-- Deleting by the marked-name list is the same as filtering by the marking
predicate, provided the names are distinct. -/
theorem filter_del_eq {α : Type} (key : α → ℕ) (l : List α) (p : α → Bool)
    (hnd : (l.map key).Nodup) :
    l.filter (fun a => !(((l.filter p).map key).contains (key a)))
      = l.filter (fun a => !(p a)) := by
  apply List.filter_congr
  intro a ha
  have hinj := List.inj_on_of_nodup_map hnd
  congr 1
  by_cases hp : p a = true
  · have hmem : key a ∈ (l.filter p).map key :=
      List.mem_map.mpr ⟨a, List.mem_filter.mpr ⟨ha, hp⟩, rfl⟩
    simp [hp, hmem]
  · have hmem : key a ∉ (l.filter p).map key := by
      intro hc
      obtain ⟨b, hb, hkey⟩ := List.mem_map.mp hc
      obtain ⟨hbl, hpb⟩ := List.mem_filter.mp hb
      have hab : b = a := hinj hbl ha hkey
      rw [hab] at hpb
      exact hp hpb
    simp [hp, hmem]

theorem elemsAfter_eq (plane : Plane) (ox oy oz : ℚ) (elements : List RElem)
    (openings : List Opening) (hen : (elements.map RElem.name).Nodup) :
    elemsAfter plane ox oy oz elements openings
      = elements.filter (fun e =>
          !(openings.any (fun op => elemInsideB plane ox oy oz op e))) := by
  unfold elemsAfter markedElems
  exact filter_del_eq RElem.name elements _ hen

theorem nodesAfterDel_eq (plane : Plane) (ox oy oz : ℚ) (nodes : List RNode)
    (openings : List Opening) (hnn : (nodes.map RNode.name).Nodup) :
    nodesAfterDel plane ox oy oz nodes openings
      = nodes.filter (fun nd =>
          !(openings.any (fun op => nodeInsideB plane ox oy oz op nd))) := by
  unfold nodesAfterDel markedNodes
  exact filter_del_eq RNode.name nodes _ hnn

/-- Conclusion of claim C5 (with containment evaluated through the source's
round-to-10-decimals comparisons): the surviving elements are exactly those
not inclusively inside any opening; the surviving nodes are exactly those
not strictly inside any opening and still referenced by a surviving
element; hence every remaining node is referenced by at least one remaining
element. -/
def C5Prop (plane : Plane) (ox oy oz : ℚ) (nodes : List RNode)
    (elements : List RElem) (openings : List Opening) : Prop :=
  (removeOpenings plane ox oy oz nodes elements openings).2
      = elements.filter (fun e =>
          !(openings.any (fun op => elemInsideB plane ox oy oz op e)))
  ∧ (removeOpenings plane ox oy oz nodes elements openings).1
      = nodes.filter (fun nd =>
          !(openings.any (fun op => nodeInsideB plane ox oy oz op nd))
          && (removeOpenings plane ox oy oz nodes elements openings).2.any
              (fun e => refsB e nd.name))
  ∧ ∀ nd ∈ (removeOpenings plane ox oy oz nodes elements openings).1,
      ∃ e ∈ (removeOpenings plane ox oy oz nodes elements openings).2,
        refsB e nd.name = true

/-- C5: opening removal deletes exactly the nodes strictly inside some
opening (boundary nodes retained), exactly the elements inclusively inside
some opening (flush elements removed), and then every node no longer
referenced by a surviving element, so afterwards every node in the mesh is
referenced by at least one element. Containment is the source's rounded
comparison. -/
theorem C5_opening_removal (plane : Plane) (ox oy oz : ℚ) (nodes : List RNode)
    (elements : List RElem) (openings : List Opening)
    (hnn : (nodes.map RNode.name).Nodup) (hen : (elements.map RElem.name).Nodup) :
    C5Prop plane ox oy oz nodes elements openings := by
  have hnd1 : ((nodesAfterDel plane ox oy oz nodes openings).map RNode.name).Nodup :=
    ((List.filter_sublist _).map RNode.name).nodup hnn
  have hmain :
      (removeOpenings plane ox oy oz nodes elements openings).1
        = nodes.filter (fun nd =>
            (elemsAfter plane ox oy oz elements openings).any
                (fun e => refsB e nd.name)
              && !(openings.any (fun op => nodeInsideB plane ox oy oz op nd))) := by
    show (nodesAfterDel plane ox oy oz nodes openings).filter _ = _
    unfold orphanNames
    rw [filter_del_eq RNode.name (nodesAfterDel plane ox oy oz nodes openings) _ hnd1]
    simp only [Bool.not_not]
    rw [nodesAfterDel_eq plane ox oy oz nodes openings hnn, List.filter_filter]
  refine ⟨elemsAfter_eq plane ox oy oz elements openings hen, ?_, ?_⟩
  · rw [hmain]
    apply List.filter_congr
    intro nd _
    exact Bool.and_comm _ _
  · intro nd hnd
    rw [hmain] at hnd
    obtain ⟨_, hcond⟩ := List.mem_filter.mp hnd
    simp only [Bool.and_eq_true] at hcond
    obtain ⟨hany, _⟩ := hcond
    obtain ⟨e, he, hrefs⟩ := List.any_eq_true.mp hany
    exact ⟨e, he, hrefs⟩

/-- C5 witness: a 2x2-element rectangle mesh in the XY plane with one
opening exactly covering the cell `[0,1]x[0,1]`. -/
theorem C5_witness :
    (([⟨1,0,0,0⟩, ⟨2,1,0,0⟩, ⟨3,2,0,0⟩, ⟨4,0,1,0⟩, ⟨5,1,1,0⟩, ⟨6,2,1,0⟩,
       ⟨7,0,2,0⟩, ⟨8,1,2,0⟩, ⟨9,2,2,0⟩] : List RNode).map RNode.name).Nodup
    ∧ (([⟨1, ⟨1,0,0,0⟩, ⟨2,1,0,0⟩, ⟨5,1,1,0⟩, ⟨4,0,1,0⟩⟩,
         ⟨2, ⟨2,1,0,0⟩, ⟨3,2,0,0⟩, ⟨6,2,1,0⟩, ⟨5,1,1,0⟩⟩,
         ⟨3, ⟨4,0,1,0⟩, ⟨5,1,1,0⟩, ⟨8,1,2,0⟩, ⟨7,0,2,0⟩⟩,
         ⟨4, ⟨5,1,1,0⟩, ⟨6,2,1,0⟩, ⟨9,2,2,0⟩, ⟨8,1,2,0⟩⟩] : List RElem).map
        RElem.name).Nodup
    ∧ C5Prop Plane.XY 0 0 0
        [⟨1,0,0,0⟩, ⟨2,1,0,0⟩, ⟨3,2,0,0⟩, ⟨4,0,1,0⟩, ⟨5,1,1,0⟩, ⟨6,2,1,0⟩,
         ⟨7,0,2,0⟩, ⟨8,1,2,0⟩, ⟨9,2,2,0⟩]
        [⟨1, ⟨1,0,0,0⟩, ⟨2,1,0,0⟩, ⟨5,1,1,0⟩, ⟨4,0,1,0⟩⟩,
         ⟨2, ⟨2,1,0,0⟩, ⟨3,2,0,0⟩, ⟨6,2,1,0⟩, ⟨5,1,1,0⟩⟩,
         ⟨3, ⟨4,0,1,0⟩, ⟨5,1,1,0⟩, ⟨8,1,2,0⟩, ⟨7,0,2,0⟩⟩,
         ⟨4, ⟨5,1,1,0⟩, ⟨6,2,1,0⟩, ⟨9,2,2,0⟩, ⟨8,1,2,0⟩⟩]
        [⟨0, 0, 1, 1⟩] :=
  ⟨by decide, by decide,
   C5_opening_removal Plane.XY 0 0 0 _ _ _ (by decide) (by decide)⟩

/-! ### Claim C9: direction validation in the shear/moment extrema

`Mesh.max_shear`/`min_shear` map `direction` to a component index (`Qx` to
0, `Qy` to 1) and raise on anything else; `max_moment`/`min_moment` accept
`Mx`, `My`, `Mxy` (0, 1, 2). The scan itself cannot raise: each element is
`Rect` or `Quad`, five sample points are taken and folded into a running
extremum that starts as `None`. Element result samplers are abstract
functions of the sample point, the load-combination name and the component
index. -/

inductive EType
  | Rect
  | Quad

/-- Abstract finite element as the scan sees it: its type, its plan
dimensions, its load-combination names, and its shear/moment result
samplers. -/
structure FE where
  etype : EType
  width : ℚ
  height : ℚ
  combos : List String
  shear : ℚ → ℚ → String → ℕ → ℚ
  moment : ℚ → ℚ → String → ℕ → ℚ

/-- The five sample values (four corners and the center) the source takes
from one element, for component `i` under load combination `cname`. -/
def sampleVals (f : ℚ → ℚ → String → ℕ → ℚ) (e : FE) (i : ℕ) (cname : String) :
    List ℚ :=
  match e.etype with
  | EType.Rect =>
    [f 0 0 cname i, f e.width 0 cname i, f e.width e.height cname i,
     f 0 e.height cname i, f ((0 + e.width)/2) ((0 + e.height)/2) cname i]
  | EType.Quad =>
    [f (-1) (-1) cname i, f 1 (-1) cname i, f 1 1 cname i, f (-1) 1 cname i,
     f ((-1 + 1)/2) ((-1 + 1)/2) cname i]

/-- Python `max` over the nonempty sample list. -/
def listMax : List ℚ → Option ℚ
  | [] => none
  | q :: rest =>
    match listMax rest with
    | none => some q
    | some m => some (max q m)

def listMin : List ℚ → Option ℚ
  | [] => none
  | q :: rest =>
    match listMin rest with
    | none => some q
    | some m => some (min q m)

/-- The running-extremum update `if acc == None or acc < q: acc = q`. -/
def updMax (acc : Option ℚ) (q : Option ℚ) : Option ℚ :=
  match q with
  | none => acc
  | some qv =>
    match acc with
    | none => some qv
    | some m => if m < qv then some qv else some m

def updMin (acc : Option ℚ) (q : Option ℚ) : Option ℚ :=
  match q with
  | none => acc
  | some qv =>
    match acc with
    | none => some qv
    | some m => if qv < m then some qv else some m

/-- The element/combination double loop shared by all four functions:
`sel` picks the per-element extremum (max or min) of the five samples,
`upd` folds it into the accumulator. -/
def meshScan (f : FE → ℚ → ℚ → String → ℕ → ℚ)
    (sel : List ℚ → Option ℚ) (upd : Option ℚ → Option ℚ → Option ℚ)
    (i : ℕ) (combo : Option String) : List FE → Option ℚ → Option ℚ
  | [], acc => acc
  | e :: rest, acc =>
    meshScan f sel upd i combo rest
      (e.combos.foldl (fun acc2 cname =>
        if combo = none ∨ combo = some cname then
          upd acc2 (sel (sampleVals (f e) e i cname))
        else acc2) acc)

/-- Embedding of `Mesh.max_shear`. -/
def max_shear (direction : String) (combo : Option String) (els : List FE) :
    Except String (Option ℚ) :=
  if direction = "Qx" then
    Except.ok (meshScan (fun e => e.shear) listMax updMax 0 combo els none)
  else if direction = "Qy" then
    Except.ok (meshScan (fun e => e.shear) listMax updMax 1 combo els none)
  else Except.error "Invalid direction specified for mesh shear results"

/-- Embedding of `Mesh.min_shear`. -/
def min_shear (direction : String) (combo : Option String) (els : List FE) :
    Except String (Option ℚ) :=
  if direction = "Qx" then
    Except.ok (meshScan (fun e => e.shear) listMin updMin 0 combo els none)
  else if direction = "Qy" then
    Except.ok (meshScan (fun e => e.shear) listMin updMin 1 combo els none)
  else Except.error "Invalid direction specified for mesh shear results"

/-- Embedding of `Mesh.max_moment`. -/
def max_moment (direction : String) (combo : Option String) (els : List FE) :
    Except String (Option ℚ) :=
  if direction = "Mx" then
    Except.ok (meshScan (fun e => e.moment) listMax updMax 0 combo els none)
  else if direction = "My" then
    Except.ok (meshScan (fun e => e.moment) listMax updMax 1 combo els none)
  else if direction = "Mxy" then
    Except.ok (meshScan (fun e => e.moment) listMax updMax 2 combo els none)
  else Except.error "Invalid direction specified for mesh moment results"

/-- Embedding of `Mesh.min_moment`. -/
def min_moment (direction : String) (combo : Option String) (els : List FE) :
    Except String (Option ℚ) :=
  if direction = "Mx" then
    Except.ok (meshScan (fun e => e.moment) listMin updMin 0 combo els none)
  else if direction = "My" then
    Except.ok (meshScan (fun e => e.moment) listMin updMin 1 combo els none)
  else if direction = "Mxy" then
    Except.ok (meshScan (fun e => e.moment) listMin updMin 2 combo els none)
  else Except.error "Invalid direction specified for mesh moment results"

def isErr {ε α : Type} : Except ε α → Bool
  | Except.error _ => true
  | Except.ok _ => false

/-- C9: for every mesh and optional combo filter, the four extremum
functions raise an invalid-direction error exactly when the direction token
is outside the respective valid set (`{Qx, Qy}` for shear, `{Mx, My, Mxy}`
for moment); for a valid token no error is raised. -/
theorem C9_direction_validation :
    ∀ (d : String) (combo : Option String) (els : List FE),
      isErr (max_shear d combo els) = !(d == "Qx" || d == "Qy")
      ∧ isErr (min_shear d combo els) = !(d == "Qx" || d == "Qy")
      ∧ isErr (max_moment d combo els) = !(d == "Mx" || d == "My" || d == "Mxy")
      ∧ isErr (min_moment d combo els) = !(d == "Mx" || d == "My" || d == "Mxy") := by
  intro d combo els
  refine ⟨?_, ?_, ?_, ?_⟩
  · unfold max_shear
    by_cases h1 : d = "Qx" <;> by_cases h2 : d = "Qy" <;>
      simp [h1, h2, isErr]
  · unfold min_shear
    by_cases h1 : d = "Qx" <;> by_cases h2 : d = "Qy" <;>
      simp [h1, h2, isErr]
  · unfold max_moment
    by_cases h1 : d = "Mx" <;> by_cases h2 : d = "My" <;> by_cases h3 : d = "Mxy" <;>
      simp [h1, h2, h3, isErr]
  · unfold min_moment
    by_cases h1 : d = "Mx" <;> by_cases h2 : d = "My" <;> by_cases h3 : d = "Mxy" <;>
      simp [h1, h2, h3, isErr]

/-! ### Claim C10: default control-point lists are shared across instances

`RectangleMesh.__init__` declares `origin=[0, 0, 0], x_control=[],
y_control=[]` as default arguments. Python allocates these list objects once
at function definition; every construction that omits the argument binds
the same object, and `self.x_control = x_control` stores the reference.
`generate` appends `0` and `width` to `x_control` and `0` and `height` to
`y_control` through that reference, and `add_rect_opening` appends the
opening edges. The heap is modeled as a store of list objects addressed by
allocation index. -/

def Store : Type := List (List ℚ)

/-- The three default list objects, allocated once at class definition:
`origin = [0, 0, 0]` at address 0, `x_control = []` at 1, `y_control = []`
at 2. -/
def initStore : Store := [[0, 0, 0], [], []]

def readRef (st : Store) (r : ℕ) : List ℚ := st.getD r []

def appendRef (st : Store) (r : ℕ) (q : ℚ) : Store := st.set r (readRef st r ++ [q])

/-- An instance as far as the control-point collections are concerned: plan
dimensions plus references (object identities) to its three list
attributes. -/
structure RMeshRef where
  width : ℚ
  height : ℚ
  originRef : ℕ
  xControlRef : ℕ
  yControlRef : ℕ

/-- Embedding of `RectangleMesh.__init__` restricted to the list-valued
attributes: an omitted argument binds the pre-allocated default object; an
explicit argument binds the address supplied by the caller. Construction
allocates nothing and leaves the store unchanged. -/
def mkRectangleMesh (st : Store) (width height : ℚ)
    (x_control y_control : Option ℕ) : Store × RMeshRef :=
  (st, ⟨width, height, 0, x_control.getD 1, y_control.getD 2⟩)

/-- The mutations `generate` performs on the control-point lists:
`x_control.append(0); x_control.append(width); y_control.append(0);
y_control.append(height)` (the later `x_control = sorted(set(x_control))`
rebinds a local variable and does not mutate the object). -/
def generateCtrlAppends (st : Store) (m : RMeshRef) : Store :=
  appendRef (appendRef (appendRef (appendRef st m.xControlRef 0)
    m.xControlRef m.width) m.yControlRef 0) m.yControlRef m.height

/-- The mutations `add_rect_opening` performs on the control-point lists. -/
def addRectOpeningCtrl (st : Store) (m : RMeshRef) (x_left y_bott w h : ℚ) :
    Store :=
  appendRef (appendRef (appendRef (appendRef st m.xControlRef x_left)
    m.yControlRef y_bott) m.xControlRef (x_left + w)) m.yControlRef (y_bott + h)

/-- C10 (code bug): two instances constructed without explicit
`x_control`/`y_control` share the very same default list objects, so
`generate()` on the second instance changes the first instance's
`x_control` from `[]` to `[0, width₂]`, and `add_rect_opening` on the
second changes the first's `y_control` — refuting the claimed isolation. -/
theorem C10_mutable_default_bug :
    (mkRectangleMesh initStore 1 1 none none).2.xControlRef
        = (mkRectangleMesh initStore 3 2 none none).2.xControlRef
    ∧ readRef initStore (mkRectangleMesh initStore 1 1 none none).2.xControlRef = []
    ∧ readRef (generateCtrlAppends initStore (mkRectangleMesh initStore 3 2 none none).2)
        (mkRectangleMesh initStore 1 1 none none).2.xControlRef = [0, 3]
    ∧ readRef (addRectOpeningCtrl initStore (mkRectangleMesh initStore 3 2 none none).2 1 1 1 1)
        (mkRectangleMesh initStore 1 1 none none).2.yControlRef = [1, 2]
    ∧ ([0, 3] : List ℚ) ≠ []
    ∧ ([1, 2] : List ℚ) ≠ [] := by
  refine ⟨rfl, rfl, ?_, ?_, by simp, by simp⟩
  · with_unfolding_all rfl
  · with_unfolding_all rfl

end PyNiteMesh
